import Mathlib

/-!
# Cardinality encoder and threshold-to-network compiler of `bule`

A shallow embedding of `constraints/cardinality.go` (the at-most-one and
exactly-one CNF encodings) and of `sorting_network/translation.go` (the
compilation of a pseudo-Boolean threshold into a network of sorters), followed
by theorems about them.

Conventions of the embedding:

* a Go slice is a `List`; `clauses.AddTaggedClause` appends one clause and
  `clauses.AddClauseSet` appends a list of clauses, so a loop that only adds
  clauses is the `map`/`flatMap` of its body over the loop's index range;
* the process-wide id counter read and bumped by `newId()` is threaded
  explicitly: every function that can call `newId` takes the counter and
  returns the new counter next to its result;
* a Go run-time panic is the result `none`.
-/

namespace Bule

/-! ## Literals, clauses and their semantics -/

/-- Modelled from the spec: the atoms of package `sat`, which is not part of the
sources at hand. `NewAtomP1 pred v1` and `NewAtomP2 pred v1 v2` build the atom
that is determined by the predicate name and the integer arguments, so two
atoms are the same exactly when they were built from the same arguments. -/
inductive Atom where
  | P1 (pred : String) (v1 : Nat)
  | P2 (pred : String) (v1 v2 : Nat)
deriving DecidableEq, Repr, Inhabited

/-- Signed literal `sat.Literal{Sign, Atom}`: `sign = true` asserts the atom. -/
structure Literal where
  sign : Bool
  atom : Atom
deriving DecidableEq, Repr, Inhabited

/-- Modelled from the spec: `sat.Neg`, the literal over the same atom with the
polarity flipped. -/
def Neg (l : Literal) : Literal := ⟨!l.sign, l.atom⟩

/-- Clause: a disjunction of literals with its provenance tag. -/
structure Clause where
  tag : String
  lits : List Literal
deriving DecidableEq, Repr, Inhabited

/-- Ordered collection of tagged clauses, `sat.ClauseSet`. -/
abbrev ClauseSet := List Clause

/-- Strategy tags of `OneTranslationType`, in the order of the `iota` block. -/
inductive OneTranslationType where
  | Naive
  | Sort
  | Split
  | Count
  | Heule
  | Log
deriving DecidableEq, Repr, Inhabited

/-- Result record `CardTranslation`. -/
structure CardTranslation where
  typ : OneTranslationType
  aux : List Literal
  clauses : ClauseSet
deriving DecidableEq, Repr, Inhabited

/-- Truth assignment of the atoms. -/
abbrev Assignment := Atom → Bool

/-- Value of a literal: it is true when the atom has the literal's polarity. -/
def Literal.eval (σ : Assignment) (l : Literal) : Bool := σ l.atom == l.sign

/-- Value of a clause: some literal is true. -/
def Clause.eval (σ : Assignment) (c : Clause) : Bool := c.lits.any (Literal.eval σ)

/-- Assignment satisfies every clause of the set. -/
def Satisfies (σ : Assignment) (cs : ClauseSet) : Prop := ∀ c ∈ cs, c.eval σ = true

instance (σ : Assignment) (cs : ClauseSet) : Decidable (Satisfies σ cs) := by
  unfold Satisfies; infer_instance

/-- Number of positions of `L` that hold a literal true under `σ`. -/
def countTrue (σ : Assignment) (L : List Literal) : Nat := L.countP (Literal.eval σ)

/-- Two assignments give every atom of the literals of `L` the same value. -/
def AgreeOn (σ τ : Assignment) (L : List Literal) : Prop := ∀ l ∈ L, τ l.atom = σ l.atom

/-! ## The id counter -/

/-- Modelled from the spec: `newId()`, of the package but not of the sources at
hand, "a process-wide monotonically increasing counter minting fresh unique
ids": it returns the counter and bumps it. -/
def newId (uniqueId : Nat) : Nat × Nat := (uniqueId, uniqueId + 1)

/-! ## `AtMostOne` -/

/-- The `case Naive` loops of `AtMostOne`: for `i, l := range lits` and
`j := i+1 .. len(lits)-1` the clause `Neg(l), Neg(lits[j])`. -/
def naiveClauses (tag : String) (lits : List Literal) : ClauseSet :=
  (List.range lits.length).flatMap fun i =>
    (List.range' (i + 1) (lits.length - (i + 1))).map fun j =>
      ⟨tag, [Neg lits[i]!, Neg lits[j]!]⟩

/-- `AtMostOne(Naive, tag, lits)`: no id is minted, `Aux` stays empty. -/
def atMostOneNaive (tag : String) (lits : List Literal) : CardTranslation :=
  ⟨.Naive, [], naiveClauses tag lits⟩

/-- The `case Split` of `AtMostOne`; the recursive calls `AtMostOne(typ, ..)`
are calls with `typ = Split`, of which only `.Clauses` is used. At or below the
cutoff the function returns the result of `AtMostOne(Naive, ..)` itself. -/
def atMostOneSplit (tag : String) (lits : List Literal) (uniqueId : Nat) :
    CardTranslation × Nat :=
  if lits.length ≤ 5 then
    (atMostOneNaive tag lits, uniqueId)
  else
    let aux := Atom.P1 "split" (newId uniqueId).1
    let u1 := (newId uniqueId).2
    let c1 := (lits.take (lits.length / 2)).map fun l => (⟨tag, [⟨true, aux⟩, Neg l]⟩ : Clause)
    let c2 := (lits.drop (lits.length / 2)).map fun l => (⟨tag, [⟨false, aux⟩, Neg l]⟩ : Clause)
    let r1 := atMostOneSplit tag (lits.take (lits.length / 2)) u1
    let r2 := atMostOneSplit tag (lits.drop (lits.length / 2)) r1.2
    (⟨.Split, [⟨true, aux⟩], c1 ++ c2 ++ r1.1.clauses ++ r2.1.clauses⟩, r2.2)
termination_by lits.length
decreasing_by
  all_goals simp_wf
  all_goals omega

/-- The prefix signals of `case Count`: `auxs[i] = Literal{true, NewAtomP2(pred, counterId, i)}`. -/
def countAuxs (counterId n : Nat) : List Literal :=
  (List.range n).map fun i => ⟨true, Atom.P2 "count" counterId i⟩

/-- The four clause loops of `case Count`, which `AtMostOne` and `ExactlyOne`
both contain verbatim. -/
def countClauses (tag : String) (lits auxs : List Literal) : ClauseSet :=
  ((List.range' 1 (lits.length - 1)).map fun i =>
      (⟨tag ++ "1", [auxs[i - 1]!, Neg auxs[i]!]⟩ : Clause)) ++
  ((List.range lits.length).map fun i =>
      (⟨tag ++ "2", [auxs[i]!, Neg lits[i]!]⟩ : Clause)) ++
  ((List.range' 1 (lits.length - 1)).map fun i =>
      (⟨tag ++ "3", [Neg auxs[i]!, Neg lits[i - 1]!]⟩ : Clause)) ++
  ((List.range' 1 lits.length).map fun i =>
      if i ≠ lits.length then
        (⟨tag ++ "4", [Neg auxs[i - 1]!, auxs[i]!, lits[i - 1]!]⟩ : Clause)
      else
        ⟨tag ++ "4", [Neg auxs[i - 1]!, lits[i - 1]!]⟩)

/-- The `case Count` of `AtMostOne`: one id for the counter, then the chain
clauses; `trans.Aux` is never assigned. -/
def atMostOneCount (tag : String) (lits : List Literal) (uniqueId : Nat) :
    CardTranslation × Nat :=
  let counterId := (newId uniqueId).1
  let auxs := countAuxs counterId lits.length
  (⟨.Count, [], countClauses tag lits auxs⟩, (newId uniqueId).2)

/-- The `case Heule` of `AtMostOne`, block size `k = 4`. -/
def atMostOneHeule (tag : String) (lits : List Literal) (uniqueId : Nat) :
    CardTranslation × Nat :=
  if 4 + 1 < lits.length then
    let aux := Atom.P1 "heule" (newId uniqueId).1
    let u1 := (newId uniqueId).2
    let front := lits.take 4 ++ [⟨true, aux⟩]
    let trans2 := atMostOneNaive tag front
    let back := lits.drop 4 ++ [⟨false, aux⟩]
    let r := atMostOneHeule tag back u1
    (⟨.Heule, ⟨true, aux⟩ :: r.1.aux, trans2.clauses ++ r.1.clauses⟩, r.2)
  else
    (⟨.Heule, [], (atMostOneNaive tag lits).clauses⟩, uniqueId)
termination_by lits.length
decreasing_by
  simp_wf
  omega

/-- Embedding of `buildLogEncoding`. The middle branch is reached only with
`cutoff = 0` and a single literal, where the Go recursion calls itself on the
same slice for ever; every call in the package passes `cutoff = 5`. -/
def buildLogEncoding (pred : String) (uId cutoff depth : Nat) (tag : String)
    (lits : List Literal) : ClauseSet :=
  if lits.length ≤ cutoff then
    (atMostOneNaive tag lits).clauses
  else if lits.length < 2 then
    []
  else
    let atom := Atom.P2 pred uId depth
    let first := lits.take (lits.length / 2)
    let c1 := first.map fun l => (⟨tag, [⟨true, atom⟩, Neg l]⟩ : Clause)
    let second := lits.drop (lits.length / 2)
    let c2 := second.map fun l => (⟨tag, [⟨false, atom⟩, Neg l]⟩ : Clause)
    c1 ++ c2 ++ buildLogEncoding pred uId cutoff (depth + 1) tag first ++
      buildLogEncoding pred uId cutoff (depth + 1) tag second
termination_by lits.length
decreasing_by
  all_goals simp_wf
  all_goals omega

/-- Comparison kinds of package `sorters` that the `Sort` strategy passes on. -/
inductive EquationType where
  | AtMost
  | Equal
deriving DecidableEq, Repr, Inhabited

/-- Type of the external builder `sat.CreateCardinality(tag, lits, k, kind)`
(after `sat.SetUp(3, sorters.Pairwise)`); it is a parameter of the embedding.
Package `sat` cannot reach the counter behind `newId`. -/
abbrev CreateCardinality := String → List Literal → Nat → EquationType → ClauseSet

/-- Embedding of `AtMostOne`: the `switch typ`, one case per strategy. -/
def AtMostOne (cc : CreateCardinality) (typ : OneTranslationType) (tag : String)
    (lits : List Literal) (uniqueId : Nat) : CardTranslation × Nat :=
  match typ with
  | .Naive => (atMostOneNaive tag lits, uniqueId)
  | .Sort => (⟨.Sort, [], cc tag lits 1 .AtMost⟩, uniqueId)
  | .Split => atMostOneSplit tag lits uniqueId
  | .Count => atMostOneCount tag lits uniqueId
  | .Heule => atMostOneHeule tag lits uniqueId
  | .Log =>
    (⟨.Log, [], buildLogEncoding "logE" (newId uniqueId).1 5 0 tag lits⟩, (newId uniqueId).2)

/-! ## `ExactlyOne` -/

/-- Embedding of `ExactlyOne`. In `case Count` the last statement reads
`auxs[0]`, which panics on an empty `lits`; the `default` branch of the Go
switch is not reachable from the six strategies. -/
def ExactlyOne (cc : CreateCardinality) (typ : OneTranslationType) (tag : String)
    (lits : List Literal) (uniqueId : Nat) : Option (CardTranslation × Nat) :=
  match typ with
  | .Sort => some (⟨.Sort, [], cc tag lits 1 .Equal⟩, uniqueId)
  | .Count =>
    let counterId := (newId uniqueId).1
    let auxs := countAuxs counterId lits.length
    match auxs[0]? with
    | none => none
    | some s0 =>
      some (⟨.Count, [], countClauses tag lits auxs ++ [⟨tag ++ "Ex1", [s0]⟩]⟩,
        (newId uniqueId).2)
  | typ =>
    let trans2 := AtMostOne cc typ tag lits uniqueId
    some (⟨typ, trans2.1.aux, trans2.1.clauses ++ [⟨tag, lits⟩]⟩, trans2.2)


/-- All pairs of positions `(i, j)` below `n` in lexicographic order, of which
the pairs with `i < j` are kept: the enumeration the spec gives for the naive
encoding. -/
def pairsLex (n : Nat) : List (Nat × Nat) :=
  ((List.range n).product (List.range n)).filter fun p => p.1 < p.2

/-- The prefix signal `S_i` that counter `counterId` mints for position `i`. -/
def signal (counterId i : Nat) : Literal := ⟨true, Atom.P2 "count" counterId i⟩

/-- The extension of `σ` to the signals of counter `c` over `L` that the proofs
use: `S_i` is given the value "some position `j ≥ i` of `L` is true". -/
def countExt (σ : Assignment) (L : List Literal) (c : Nat) : Assignment :=
  fun a =>
    match a with
    | .P2 p c1 i =>
      if p = "count" ∧ c1 = c ∧ i < L.length then (L.drop i).any (Literal.eval σ) else σ a
    | .P1 _ _ => σ a

/-- Six positive literals over distinct atoms of a predicate `x`, the sample
input of the closed instances below. -/
def sampleLits : List Literal :=
  [⟨true, .P1 "x" 0⟩, ⟨true, .P1 "x" 1⟩, ⟨true, .P1 "x" 2⟩, ⟨true, .P1 "x" 3⟩,
   ⟨true, .P1 "x" 4⟩, ⟨true, .P1 "x" 5⟩]

/-! ## Thresholds and bags (`sorting_network/translation.go`) -/

/-- Value of an `int64` computation: the representative of `x` modulo `2^64`
in `[-2^63, 2^63)`. -/
def wrap64 (x : Int) : Int := (x + 2 ^ 63) % 2 ^ 64 - 2 ^ 63

/-- Modelled from the spec: an entry of a threshold, a weight and a signed
literal (`constraints.Entry`, whose declaration is outside the sources at
hand). -/
structure Entry where
  literal : Literal
  weight : Int
deriving DecidableEq, Repr, Inhabited

/-- Modelled from the spec: `constraints.Threshold`, "ordered list of (positive
weight, signed literal) entries plus integer K, meaning Σ weight·literal ≤ K". -/
structure Threshold where
  entries : List Entry
  K : Int
deriving DecidableEq, Repr, Inhabited

/-- Sum of all weights of the threshold, as a mathematical integer. -/
def Threshold.sumWeights (pb : Threshold) : Int := (pb.entries.map (·.weight)).sum

/-- Weighted sum of the literals that are true under `σ`. -/
def Threshold.weightedSum (σ : Assignment) (pb : Threshold) : Int :=
  (pb.entries.map fun e => if e.literal.eval σ = true then e.weight else 0).sum

/-- Modelled from the spec: `Threshold.IsNormalized`, "must be normalized
(positive weights, K ≥ 0, K below the achievable sum)". -/
def Threshold.IsNormalized (pb : Threshold) : Bool :=
  pb.entries.all (fun e => decide (0 < e.weight)) && decide (0 ≤ pb.K) &&
    decide (pb.K < pb.sumWeights)

/-- Modelled from the spec: `Threshold.NormalizeAtMost`, which brings the
threshold into the normal form and returns the achievable sum; on a threshold
with positive weights in at-most form nothing is left to change, and the sum
is accumulated in an `int64`. -/
def Threshold.NormalizeAtMost (pb : Threshold) : Int := wrap64 pb.sumWeights

/-- Binary digits of `n`, least significant first, computed with `fuel`
halvings at most. -/
def binaryAux : Nat → Nat → List Nat
  | 0, _ => []
  | fuel + 1, n => if n < 2 then [n] else n % 2 :: binaryAux fuel (n / 2)

/-- Modelled from the spec: `constraints.Binary`, the binary digits of a
non-negative number, digit `i` being the bit of weight `2^i` (bag `i` collects
the literals whose weight has bit `i` set); `0` has the single digit `0`. Every
call in `translation.go` passes a non-negative number. -/
def Binary (n : Int) : List Nat := binaryAux (n.toNat + 1) n.toNat

/-- The loop `for j, x := range bins[i] { bagSize[j] += x }` from digit `j` on:
an index outside `bagSize` panics. -/
def addBits : Nat → List Nat → List Nat → Option (List Nat)
  | _, [], bagSize => some bagSize
  | j, x :: bin, bagSize =>
    match bagSize[j]? with
    | none => none
    | some s => addBits (j + 1) bin (bagSize.set j (s + x))

/-- First loop of `CreateBags` over the entries: the bag sizes and the maximal
weight. -/
def sizeLoop : List Entry → List Nat × Int → Option (List Nat × Int)
  | [], st => some st
  | e :: es, st =>
    match addBits 0 (Binary e.weight) st.1 with
    | none => none
    | some bagSize => sizeLoop es (bagSize, if st.2 < e.weight then e.weight else st.2)

/-- The allocation loop `t.Bags[i] = make([]sat.Literal, bagSize[i])`. -/
def allocBags : List Nat → List Nat → Option (List (List Literal))
  | [], _ => some []
  | i :: is, bagSize =>
    match bagSize[i]? with
    | none => none
    | some s =>
      match allocBags is bagSize with
      | none => none
      | some bags => some (List.replicate s default :: bags)

/-- The loop `for j, x := range bins[i]` of the last pass from digit `j` on:
`if x == 1 { t.Bags[j][bagPos[j]] = e.Literal; bagPos[j]++ }`. -/
def placeBits (lit : Literal) :
    Nat → List Nat → List (List Literal) × List Nat → Option (List (List Literal) × List Nat)
  | _, [], st => some st
  | j, x :: bin, st =>
    if x = 1 then
      match st.1[j]?, st.2[j]? with
      | some bag, some pos =>
        if pos < bag.length then
          placeBits lit (j + 1) bin (st.1.set j (bag.set pos lit), st.2.set j (pos + 1))
        else none
      | _, _ => none
    else placeBits lit (j + 1) bin st

/-- Last pass of `CreateBags` over the entries. -/
def placeLoop :
    List Entry → List (List Literal) × List Nat → Option (List (List Literal) × List Nat)
  | [], st => some st
  | e :: es, st =>
    match placeBits e.literal 0 (Binary e.weight) st with
    | none => none
    | some st1 => placeLoop es st1

/-- Embedding of `Translation.CreateBags`: the bags, or `none` when the Go code
panics. -/
def CreateBags (pb : Threshold) : Option (List (List Literal)) :=
  if pb.IsNormalized = false then none
  else
    let nBags := (Binary pb.K).length
    match sizeLoop pb.entries (List.replicate nBags 0, 0) with
    | none => none
    | some (bagSize, maxWeight) =>
      match allocBags (List.range (Binary maxWeight).length) bagSize with
      | none => none
      | some bags =>
        match placeLoop pb.entries (bags, List.replicate nBags 0) with
        | none => none
        | some st => some st.1

/-! ## The sorter of a threshold -/

/-- The halving loop of `CreateSorter` over `merger.Out` from position `j` on:
`if j%2 == odd { bIn[j/2] = x }`; writing outside `bIn` panics. -/
def halveLoop {W : Type} (odd : Nat) : Nat → List W → List W → Option (List W)
  | _, [], bIn => some bIn
  | j, x :: out, bIn =>
    if j % 2 = odd then
      if j / 2 < bIn.length then halveLoop odd (j + 1) out (bIn.set (j / 2) x) else none
    else halveLoop odd (j + 1) out bIn

/-- The halving circuit of `CreateSorter` for one layer: `tareBit` is
`i < len(bTare) && bTare[i] == 1`. -/
def halve {W : Type} [Inhabited W] (tareBit : Bool) (out : List W) : Option (List W) :=
  if tareBit then halveLoop 0 0 out (List.replicate ((out.length + 1) / 2) default)
  else halveLoop 1 0 out (List.replicate (out.length / 2) default)

/-- The loop `for i, layer := range layers` of `CreateSorter` from layer `i`
on, under an interpretation of the wires: a wire is represented by what it
carries (`W`; a truth value when the network is run on an assignment).
`net size cut ins` stands for the external network
`sorters.CreateSortingNetwork(size, cut, typ)` normalised onto the input wires
`ins` and gives its output wires; the inputs of layer `i` are the literals of
bag `i`. -/
def layerLoop {W : Type} [Inhabited W] (net : Nat → Int → List W → List W)
    (lit : Literal → W) (bTare : List Nat) : Nat → List (List Literal) → List W → Option (List W)
  | _, [], bIn => some bIn
  | i, bag :: bags, bIn =>
    let layerOut := net bag.length (-1) (bag.map lit)
    let size := bIn.length + bag.length
    let mergeIn := bIn ++ layerOut
    let mergerOut := net size bIn.length mergeIn
    match halve (decide (i < bTare.length ∧ bTare[i]! = 1)) mergerOut with
    | none => none
    | some bIn1 => layerLoop net lit bTare (i + 1) bags bIn1

/-- What `CreateSorter` has computed when it reaches the boundary extraction:
the bags, the literals appended to `t.PB.LitIn`, `t.Tare`, the carry list
`bIn` after the last layer, the index `outLastLayer` and the wire
`idSetToZero` found there. -/
structure SorterState (W : Type) where
  bags : List (List Literal)
  litIn : List Literal
  tare : Int
  bIn : List W
  outLastLayer : Int
  idSetToZero : W

/-- Embedding of `Translation.CreateSorter` up to the choice of the boundary
wire `idSetToZero := bIn[outLastLayer]`; `none` is a panic. All arithmetic on
`K`, the tare and the power of two is `int64` arithmetic. -/
def CreateSorter {W : Type} [Inhabited W] (net : Nat → Int → List W → List W)
    (lit : Literal → W) (pb : Threshold) : Option (SorterState W) :=
  let total := pb.NormalizeAtMost
  if total ≤ pb.K then none
  else if pb.K = 0 then none
  else
    match CreateBags pb with
    | none => none
    | some bags =>
      let layerPow2 := wrap64 (2 ^ bags.length)
      if layerPow2 = 0 then none
      else
        let tare0 := wrap64 (layerPow2 - Int.tmod (wrap64 (pb.K + 1)) layerPow2)
        let tare := Int.tmod tare0 layerPow2
        let bTare := Binary tare
        match layerLoop net lit bTare 0 bags [] with
        | none => none
        | some bIn =>
          let outLastLayer :=
            wrap64 (Int.tdiv (wrap64 (wrap64 (pb.K + 1) + tare)) layerPow2 - 1)
          if outLastLayer < 0 then none
          else
            match bIn[outLastLayer.toNat]? with
            | none => none
            | some w => some ⟨bags, bags.flatten, tare, bIn, outLastLayer, w⟩

/-- Descending order of truth values: the true wires first. -/
def sortDesc (xs : List Bool) : List Bool :=
  List.replicate (xs.count true) true ++ List.replicate (xs.count false) false

/-- Unary representation of the number `c` on `m` wires: `c` true wires
followed by false wires. -/
def unary (c m : Nat) : List Bool := List.replicate c true ++ List.replicate (m - c) false

/-- The number with the binary digit counts `cs`: `Σ 2^k * cs[k]`. -/
def wsum : List Nat → Nat
  | [] => 0
  | c :: cs => c + 2 * wsum cs

/-- Bit `k` of the tare as the halving circuit of layer `k` tests it:
`k < len(bTare) && bTare[k] == 1`. -/
def tareBit (bTare : List Nat) (k : Nat) : Bool := decide (k < bTare.length ∧ bTare[k]! = 1)

/-- Digit `j` of the weight of `e` is `1`: the test `x == 1` of `CreateBags`
for `x = bins[i][j]`. -/
def hasBit (j : Nat) (e : Entry) : Bool := decide ((Binary e.weight).getD j 0 = 1)

/-- Bag `j` as the spec describes it: the literals of the entries whose weight
has bit `j` set, in entry order. -/
def bagSpec (es : List Entry) (j : Nat) : List Literal := (es.filter (hasBit j)).map (·.literal)

/-- The running maximum `if maxWeight < e.Weight { maxWeight = e.Weight }`. -/
def maxWeightFrom (es : List Entry) (m : Int) : Int :=
  es.foldl (fun m e => if m < e.weight then e.weight else m) m

/-- Weighted sum over the entries that satisfy `p`, as a natural number. -/
def natSum (p : Entry → Bool) (es : List Entry) : Nat :=
  (es.map fun e => if p e = true then e.weight.toNat else 0).sum

/-- The threshold `1·x1 + 2·x2 + 3·x3 + 4·x4 ≤ 5` of the spec's round-trip
scenario. -/
def pbSmall : Threshold :=
  ⟨[⟨⟨true, .P1 "x" 1⟩, 1⟩, ⟨⟨true, .P1 "x" 2⟩, 2⟩, ⟨⟨true, .P1 "x" 3⟩, 3⟩,
    ⟨⟨true, .P1 "x" 4⟩, 4⟩], 5⟩

/-- The bags of `pbSmall`: the literals with weight bit 0, bit 1 and bit 2. -/
def bagsSmall : List (List Literal) :=
  [[⟨true, .P1 "x" 1⟩, ⟨true, .P1 "x" 3⟩], [⟨true, .P1 "x" 2⟩, ⟨true, .P1 "x" 3⟩],
    [⟨true, .P1 "x" 4⟩]]

/-- The threshold `8·x1 + 1·x2 ≤ 3`: normalized in the spec's sense, with a
weight of four binary digits against a `K` of two. -/
def pbWide : Threshold := ⟨[⟨⟨true, .P1 "x" 1⟩, 8⟩, ⟨⟨true, .P1 "x" 2⟩, 1⟩], 3⟩

/-- The power of two of `CreateSorter`, `layerPow2 := int64(1 << uint(len(t.Bags)))`,
for `n` bags. -/
def layerPow2 (n : Nat) : Int := wrap64 (2 ^ n)

/-- The tare of `CreateSorter` for the threshold bound `K` and `n` bags:
`tare := layerPow2 - ((K + 1) % layerPow2); tare = tare % layerPow2`, in
`int64`; `none` is the panic of `%` by zero. -/
def computeTare (K : Int) (n : Nat) : Option Int :=
  if layerPow2 n = 0 then none
  else
    some (Int.tmod (wrap64 (layerPow2 n - Int.tmod (wrap64 (K + 1)) (layerPow2 n)))
      (layerPow2 n))

/-- The boundary index of `CreateSorter`,
`outLastLayer := ((K + 1 + tare) / int64(layerPow2)) - 1`, in `int64`. -/
def computeOutLastLayer (K : Int) (n : Nat) (tare : Int) : Int :=
  wrap64 (Int.tdiv (wrap64 (wrap64 (K + 1) + tare)) (layerPow2 n) - 1)

/-- The walk of `CreateSorter` over `t.Sorter.ComputeOut()` with the variable
`setTo` and the map `finalMapping` (a wire id without an entry is `none`):
`if id == idSetToZero { setTo = 0 }` and then
`if _, ok := finalMapping[id]; !ok { finalMapping[id] = setTo }`. The output
order of the external `ComputeOut` is the list argument. -/
def boundaryWalk (idSetToZero : Int) : List Int → Int → (Int → Option Int) → Int → Option Int
  | [], _, finalMapping => finalMapping
  | id :: rest, setTo, finalMapping =>
    let setTo1 := if id = idSetToZero then 0 else setTo
    match finalMapping id with
    | some _ => boundaryWalk idSetToZero rest setTo1 finalMapping
    | none =>
      boundaryWalk idSetToZero rest setTo1 (fun x => if x = id then some setTo1 else finalMapping x)

/-- The variables that occur in a clause set. -/
def clauseAtoms (cs : ClauseSet) : List Atom := cs.flatMap fun c => c.lits.map (·.atom)

/-- The auxiliary variables of a clause set over the literals `L`: the
variables that occur in the clauses and are not the variable of a literal of
`L`. -/
def auxAtoms (L : List Literal) (cs : ClauseSet) : Finset Atom :=
  (clauseAtoms cs).toFinset.filter fun a => a ∉ L.map (·.atom)

/-- Twelve positive literals over distinct atoms of a predicate `x`. -/
def sampleLits12 : List Literal := (List.range 12).map fun i => ⟨true, .P1 "x" i⟩

/-- The strategy that a Go value of `OneTranslationType`, an `int`, denotes:
the constants of the `iota` block are `0` to `5`; any other value denotes none. -/
def OneTranslationType.ofInt (typ : Int) : Option OneTranslationType :=
  if typ = 0 then some .Naive
  else if typ = 1 then some .Sort
  else if typ = 2 then some .Split
  else if typ = 3 then some .Count
  else if typ = 4 then some .Heule
  else if typ = 5 then some .Log
  else none

/-- The `int` value of a strategy constant. -/
def OneTranslationType.toInt : OneTranslationType → Int
  | .Naive => 0
  | .Sort => 1
  | .Split => 2
  | .Count => 3
  | .Heule => 4
  | .Log => 5

/-- `CardTranslation` with the field `Typ` as the `int` it is in Go. -/
structure RawCardTranslation where
  typ : Int
  aux : List Literal
  clauses : ClauseSet
deriving DecidableEq, Repr, Inhabited

/-- `AtMostOne` on an arbitrary value of the `int` type `OneTranslationType`:
its `switch typ` has no `default`, so for a value outside the six constants no
case runs and the function returns `trans` with `Typ` set and nothing else. -/
def AtMostOneInt (cc : CreateCardinality) (typ : Int) (tag : String) (lits : List Literal)
    (uniqueId : Nat) : Option (RawCardTranslation × Nat) :=
  match OneTranslationType.ofInt typ with
  | some t =>
    let r := AtMostOne cc t tag lits uniqueId
    some (⟨r.1.typ.toInt, r.1.aux, r.1.clauses⟩, r.2)
  | none => some (⟨typ, [], []⟩, uniqueId)

/-- `ExactlyOne` on an arbitrary value of the `int` type `OneTranslationType`:
outside the six constants the `default` branch panics with "CNF translation
for this type not implemented yet". -/
def ExactlyOneInt (cc : CreateCardinality) (typ : Int) (tag : String) (lits : List Literal)
    (uniqueId : Nat) : Option (RawCardTranslation × Nat) :=
  match OneTranslationType.ofInt typ with
  | some t =>
    (ExactlyOne cc t tag lits uniqueId).map fun r => (⟨r.1.typ.toInt, r.1.aux, r.1.clauses⟩, r.2)
  | none => none

/-! ## The split nodes of the Log encoding -/

/-- A call of `buildLogEncoding` that takes the `else` branch (a split node).
`path` is the way to it from the outermost call (`false` for the recursive
call on `first`, `true` for the one on `second`), `depth` and `lits` are the
arguments of the call and `atom` is what it builds with
`sat.NewAtomP2(pred, uId, depth)`. -/
structure LogNode where
  path : List Bool
  depth : Nat
  lits : List Literal
  atom : Atom
deriving DecidableEq, Repr

/-- The split nodes of `buildLogEncoding pred uId cutoff depth tag lits` in the
order of the calls: the case distinction and the recursive calls of
`buildLogEncoding`, with the node recorded in place of its clauses. -/
def logSplitNodes (pred : String) (uId cutoff depth : Nat) (path : List Bool)
    (lits : List Literal) : List LogNode :=
  if lits.length ≤ cutoff then
    []
  else if lits.length < 2 then
    []
  else
    let atom := Atom.P2 pred uId depth
    let first := lits.take (lits.length / 2)
    let second := lits.drop (lits.length / 2)
    ⟨path, depth, lits, atom⟩ ::
      (logSplitNodes pred uId cutoff (depth + 1) (path ++ [false]) first ++
        logSplitNodes pred uId cutoff (depth + 1) (path ++ [true]) second)
termination_by lits.length
decreasing_by
  all_goals simp_wf
  all_goals omega

/-! ## Networks without comparators -/

namespace Lib

/-- Literal of package `lib`; `Predicate` and `Term` are strings. -/
structure Literal where
  Neg : Bool
  Fact : Bool
  Name : String
  Terms : List String
deriving DecidableEq, Repr

/-- The fields of `Program` that `MergeConsecutiveQuantificationLevels` reads
and writes. A Go map `map[int][]Literal` is the list of its entries, read with
`List.lookup` (`atoms, ok := m[i]` is `some atoms` when `ok`). Slices are
lists: the entries of the maps are taken to share no backing array, so the
`append` on `acc` changes no entry. -/
structure Program where
  Alternation : List (List Literal)
  existQ : List (Int × List Literal)
  forallQ : List (Int × List Literal)
deriving DecidableEq, Repr

/-- The loop `for k := range m { if maxIndex < k { maxIndex = k } }`; the result
does not depend on the order in which the keys are visited. -/
def maxKey (m : List (Int × List Literal)) (maxIndex : Int) : Int :=
  m.foldl (fun acc kv => if acc < kv.1 then kv.1 else acc) maxIndex

/-- The variables of the main loop of `MergeConsecutiveQuantificationLevels`:
`p.Alternation`, `last` and `acc`. -/
structure MergeState where
  Alternation : List (List Literal)
  last : String
  acc : List Literal
deriving DecidableEq, Repr

/-- One of the two `if atoms, ok := ...; ok` blocks of the loop body, for the
quantifier `q` (`"a"` for the block on `p.forallQ`, `"e"` for the one on
`p.existQ`) and the map entry `entry` of the level:
`if last == q { acc = append(acc, atoms...) } else
{ p.Alternation = append(p.Alternation, acc); last = q; acc = atoms }`. -/
def mergeBlock (q : String) (entry : Option (List Literal)) (s : MergeState) : MergeState :=
  match entry with
  | none => s
  | some atoms =>
    if s.last = q then ⟨s.Alternation, s.last, s.acc ++ atoms⟩
    else ⟨s.Alternation ++ [s.acc], q, atoms⟩

/-- The body of the main loop at level `i`: the block on `p.forallQ[i]`, then
the block on `p.existQ[i]`. -/
def mergeBody (p : Program) (i : Int) (s : MergeState) : MergeState :=
  mergeBlock "e" (p.existQ.lookup i) (mergeBlock "a" (p.forallQ.lookup i) s)

/-- The loop `for i := ...; i <= maxIndex; i++` from the value `i` of the
counter on. The counter is a Go `int`, 64 bits wide, so `i++` wraps; the loop
runs for at most `fuel` iterations and `none` says that it has not finished
by then. -/
def mergeLoop (p : Program) (maxIndex : Int) : Nat → Int → MergeState → Option MergeState
  | 0, i, s => if i ≤ maxIndex then none else some s
  | fuel + 1, i, s =>
    if i ≤ maxIndex then mergeLoop p maxIndex fuel (wrap64 (i + 1)) (mergeBody p i s)
    else some s

/-- The value of `maxIndex` when the main loop starts. -/
def Program.maxIndex (p : Program) : Int := maxKey p.existQ (maxKey p.forallQ (-1))

/-- Embedding of `Program.MergeConsecutiveQuantificationLevels`, with the
number of iterations its main loop may take: `none` when the loop has not
finished within `fuel` iterations. -/
def Program.MergeConsecutiveQuantificationLevels (fuel : Nat) (p : Program) : Option Program :=
  match mergeLoop p p.maxIndex fuel (-1) ⟨p.Alternation, "e", []⟩ with
  | none => none
  | some s =>
    if s.acc.length > 0 then some ⟨s.Alternation ++ [s.acc], p.existQ, p.forallQ⟩
    else some ⟨s.Alternation, p.existQ, p.forallQ⟩

/-- A program with the levels `0` (universal and existential) and `1`
(existential) and `2` (universal). -/
def progSmall : Program :=
  ⟨[], [(0, [⟨false, false, "e0", []⟩]), (1, [⟨false, false, "e1", []⟩])],
    [(0, [⟨false, false, "a0", []⟩]), (2, [⟨false, false, "a2", []⟩])]⟩

end Lib

/-! # Theorems -/
theorem getElem!_cons_succ (l : Literal) (rest : List Literal) (j : Nat) :
    (l :: rest)[j + 1]! = rest[j]! := by
  simp [getElem!_def, List.getElem?_cons_succ]

theorem map_getElem!_range (rest : List Literal) :
    (List.range rest.length).map (fun j => rest[j]!) = rest := by
  apply List.ext_getElem
  · simp
  · intro i h1 h2
    simp at h1
    simp [h1, getElem!_pos]

theorem naiveClauses_cons (tag : String) (l : Literal) (rest : List Literal) :
    naiveClauses tag (l :: rest) =
      rest.map (fun m => (⟨tag, [Neg l, Neg m]⟩ : Clause)) ++ naiveClauses tag rest := by
  unfold naiveClauses
  rw [List.length_cons, List.range_succ_eq_map, List.flatMap_cons, List.flatMap_map]
  congr 1
  · have h : (List.range' 1 rest.length) = (List.range rest.length).map (· + 1) := by
      simp [List.range'_eq_map_range, Nat.add_comm]
    simp only [Nat.zero_add, Nat.add_sub_cancel, h, List.map_map]
    conv_rhs => rw [← map_getElem!_range rest]
    simp [List.map_map, Function.comp_def, getElem!_cons_succ]
  · apply List.flatMap_congr  
    intro i hi
    have h : List.range' (i + 1 + 1) (rest.length - (i + 1)) =
        (List.range' (i + 1) (rest.length - (i + 1))).map (· + 1) := by
      simp [List.range'_eq_map_range, Nat.add_comm, Nat.add_left_comm]
    simp only [Function.comp_def, Nat.succ_eq_add_one, Nat.add_sub_add_right, h, List.map_map,
      getElem!_cons_succ]

/-! ## Semantics: basic facts -/

theorem eval_Neg (σ : Assignment) (l : Literal) : (Neg l).eval σ = !(l.eval σ) := by
  cases l with
  | mk s a => cases s <;> cases h : σ a <;> simp [Neg, Literal.eval, h]

theorem satisfies_nil (σ : Assignment) : Satisfies σ [] := by
  intro c hc
  cases hc

theorem satisfies_append (σ : Assignment) (a b : ClauseSet) :
    Satisfies σ (a ++ b) ↔ Satisfies σ a ∧ Satisfies σ b := by
  unfold Satisfies
  constructor
  · intro h
    exact ⟨fun c hc => h c (List.mem_append_left _ hc), fun c hc => h c (List.mem_append_right _ hc)⟩
  · rintro ⟨h1, h2⟩ c hc
    rcases List.mem_append.1 hc with h | h
    · exact h1 c h
    · exact h2 c h

theorem satisfies_map (σ : Assignment) (f : α → Clause) (xs : List α) :
    Satisfies σ (xs.map f) ↔ ∀ x ∈ xs, (f x).eval σ = true := by
  unfold Satisfies
  constructor
  · intro h x hx
    exact h _ (List.mem_map_of_mem f hx)
  · intro h c hc
    rcases List.mem_map.1 hc with ⟨x, hx, rfl⟩
    exact h x hx

theorem countTrue_nil (σ : Assignment) : countTrue σ [] = 0 := rfl

theorem countTrue_cons (σ : Assignment) (l : Literal) (L : List Literal) :
    countTrue σ (l :: L) = countTrue σ L + (if l.eval σ = true then 1 else 0) := by
  unfold countTrue
  rw [List.countP_cons]

theorem countTrue_append (σ : Assignment) (L M : List Literal) :
    countTrue σ (L ++ M) = countTrue σ L + countTrue σ M := by
  unfold countTrue
  rw [List.countP_append]

theorem countTrue_eq_zero (σ : Assignment) (L : List Literal) :
    countTrue σ L = 0 ↔ ∀ m ∈ L, m.eval σ = false := by
  unfold countTrue
  rw [List.countP_eq_zero]
  simp

theorem countTrue_congr (σ τ : Assignment) (L : List Literal) (h : AgreeOn σ τ L) :
    countTrue τ L = countTrue σ L := by
  unfold countTrue
  apply List.countP_congr
  intro l hl
  simp [Literal.eval, h l hl]

/-! ## The naive encoding -/

theorem naiveClauses_nil (tag : String) : naiveClauses tag [] = [] := by
  simp [naiveClauses]

theorem naiveClauses_satisfies (σ : Assignment) (tag : String) (L : List Literal) :
    Satisfies σ (naiveClauses tag L) ↔ countTrue σ L ≤ 1 := by
  induction L with
  | nil => simp [naiveClauses_nil, satisfies_nil, countTrue_nil]
  | cons l rest ih =>
    rw [naiveClauses_cons, satisfies_append, ih, satisfies_map, countTrue_cons]
    by_cases hl : l.eval σ = true
    · simp only [Clause.eval, List.any_cons, eval_Neg, hl, List.any_nil, Bool.not_true,
        Bool.false_or, Bool.or_false, if_true, Bool.not_eq_true']
      rw [← countTrue_eq_zero]
      omega
    · simp only [Clause.eval, List.any_cons, eval_Neg, List.any_nil, hl, if_false]
      simp at hl
      simp [hl]

/-- **C1**: an assignment satisfies every clause that `AtMostOne(Naive, tag, L)`
returns if and only if at most one position of `L` holds a literal that is true
under the assignment; `L` is any list, duplicates included. -/
theorem atMostOne_naive_iff (cc : CreateCardinality) (tag : String) (L : List Literal)
    (uniqueId : Nat) (σ : Assignment) :
    Satisfies σ (AtMostOne cc .Naive tag L uniqueId).1.clauses ↔ countTrue σ L ≤ 1 := by
  simp only [AtMostOne, atMostOneNaive]
  exact naiveClauses_satisfies σ tag L

theorem filter_lt_range (i n : Nat) :
    (List.range n).filter (fun j => decide (i < j)) = List.range' (i + 1) (n - (i + 1)) := by
  induction n with
  | zero => simp
  | succ n ih =>
    rw [List.range_succ, List.filter_append, ih]
    by_cases h : i < n
    · have e : n + 1 - (i + 1) = (n - (i + 1)) + 1 := by omega
      rw [e, List.range'_1_concat]
      have e2 : i + 1 + (n - (i + 1)) = n := by omega
      simp [h, e2]
    · have e : n + 1 - (i + 1) = 0 := by omega
      have e2 : n - (i + 1) = 0 := by omega
      simp [h, e, e2]

theorem pairsLex_eq (n : Nat) :
    pairsLex n = (List.range n).flatMap fun i =>
      (List.range' (i + 1) (n - (i + 1))).map fun j => (i, j) := by
  unfold pairsLex List.product
  rw [List.filter_flatMap]
  apply List.flatMap_congr
  intro i _
  rw [List.filter_map, ← filter_lt_range]
  rfl

theorem naiveClauses_eq_pairs (tag : String) (L : List Literal) :
    naiveClauses tag L =
      (pairsLex L.length).map fun p => (⟨tag, [Neg L[p.1]!, Neg L[p.2]!]⟩ : Clause) := by
  rw [pairsLex_eq, List.map_flatMap]
  unfold naiveClauses
  apply List.flatMap_congr
  intro i _
  rw [List.map_map]
  rfl

theorem naiveClauses_length (tag : String) (L : List Literal) :
    2 * (naiveClauses tag L).length = L.length * (L.length - 1) := by
  induction L with
  | nil => simp [naiveClauses_nil]
  | cons l rest ih =>
    rw [naiveClauses_cons, List.length_append, List.length_map, Nat.mul_add, ih, List.length_cons,
      Nat.add_sub_cancel]
    cases h : rest.length with
    | zero => simp
    | succ m =>
      simp only [Nat.add_sub_cancel]
      ring

theorem mem_pairsLex (n i j : Nat) : (i, j) ∈ pairsLex n ↔ i < j ∧ j < n := by
  simp only [pairsLex, List.mem_filter, List.pair_mem_product, List.mem_range, decide_eq_true_eq]
  omega

/-- **C9**: `AtMostOne(Naive, tag, L)` returns, for the pairs of positions
`i < j` of `L` in lexicographic order, the two-literal clauses
`Neg L[i], Neg L[j]` tagged `tag`, which are `n(n-1)/2` clauses for `n`
literals, and an empty `Aux`; on `[a, b, c]` these are the three clauses
`¬a∨¬b`, `¬a∨¬c`, `¬b∨¬c`. -/
theorem atMostOne_naive_clauses (cc : CreateCardinality) (tag : String) (L : List Literal)
    (uniqueId : Nat) :
    (AtMostOne cc .Naive tag L uniqueId).1.clauses =
        (pairsLex L.length).map (fun p => (⟨tag, [Neg L[p.1]!, Neg L[p.2]!]⟩ : Clause)) ∧
      (∀ i j, (i, j) ∈ pairsLex L.length ↔ i < j ∧ j < L.length) ∧
      (AtMostOne cc .Naive tag L uniqueId).1.clauses.length = L.length * (L.length - 1) / 2 ∧
      (AtMostOne cc .Naive tag L uniqueId).1.aux = [] ∧
      (AtMostOne cc .Naive tag L uniqueId).2 = uniqueId ∧
      ∀ a b c : Literal, AtMostOne cc .Naive tag [a, b, c] uniqueId =
        (⟨.Naive, [], [⟨tag, [Neg a, Neg b]⟩, ⟨tag, [Neg a, Neg c]⟩, ⟨tag, [Neg b, Neg c]⟩]⟩,
          uniqueId) := by
  refine ⟨naiveClauses_eq_pairs tag L, mem_pairsLex L.length, ?_, rfl, rfl, ?_⟩
  · have h := naiveClauses_length tag L
    simp only [AtMostOne, atMostOneNaive]
    omega
  · intro a b c
    simp [AtMostOne, atMostOneNaive, naiveClauses_cons, naiveClauses_nil]

/-! ## `ExactlyOne` on top of `AtMostOne` -/

/-- **C8**: for the strategies Naive, Split, Heule and Log, `ExactlyOne` returns
the clauses of `AtMostOne` run from the same counter, followed by the single
clause tagged `tag` that holds the literals of `L`, and the `Aux` of that
`AtMostOne` call. -/
theorem exactlyOne_eq_atMostOne_append (cc : CreateCardinality) (typ : OneTranslationType)
    (tag : String) (L : List Literal) (uniqueId : Nat)
    (h : typ = .Naive ∨ typ = .Split ∨ typ = .Heule ∨ typ = .Log) :
    ExactlyOne cc typ tag L uniqueId =
      some (⟨typ, (AtMostOne cc typ tag L uniqueId).1.aux,
          (AtMostOne cc typ tag L uniqueId).1.clauses ++ [⟨tag, L⟩]⟩,
        (AtMostOne cc typ tag L uniqueId).2) := by
  rcases h with h | h | h | h <;> subst h <;> rfl

theorem exactlyOne_eq_atMostOne_append_witness :
    ((OneTranslationType.Split = .Naive ∨ OneTranslationType.Split = .Split ∨
        OneTranslationType.Split = .Heule ∨ OneTranslationType.Split = .Log)) ∧
      ExactlyOne (fun _ _ _ _ => []) .Split "t" [⟨true, .P1 "x" 0⟩, ⟨true, .P1 "x" 1⟩] 7 =
        some (⟨.Split,
          (AtMostOne (fun _ _ _ _ => []) .Split "t" [⟨true, .P1 "x" 0⟩, ⟨true, .P1 "x" 1⟩] 7).1.aux,
          (AtMostOne (fun _ _ _ _ => []) .Split "t"
              [⟨true, .P1 "x" 0⟩, ⟨true, .P1 "x" 1⟩] 7).1.clauses ++
            [⟨"t", [⟨true, .P1 "x" 0⟩, ⟨true, .P1 "x" 1⟩]⟩]⟩,
          (AtMostOne (fun _ _ _ _ => []) .Split "t" [⟨true, .P1 "x" 0⟩, ⟨true, .P1 "x" 1⟩] 7).2) :=
  ⟨by decide, exactlyOne_eq_atMostOne_append _ _ _ _ _ (by decide)⟩

/-! ## The sequential counter: shape of the clause list -/

theorem countAuxs_length (c n : Nat) : (countAuxs c n).length = n := by
  simp [countAuxs]

theorem countAuxs_getElem! (c n i : Nat) (h : i < n) : (countAuxs c n)[i]! = signal c i := by
  have h2 : i < (countAuxs c n).length := by simpa [countAuxs] using h
  rw [getElem!_pos (countAuxs c n) i h2]
  simp [countAuxs, signal]

theorem countClauses_eq (tag : String) (L : List Literal) (c : Nat) (hL : L ≠ []) :
    countClauses tag L (countAuxs c L.length) =
      ((List.range (L.length - 1)).map fun k =>
          (⟨tag ++ "1", [signal c k, Neg (signal c (k + 1))]⟩ : Clause)) ++
      ((List.range L.length).map fun i =>
          (⟨tag ++ "2", [signal c i, Neg L[i]!]⟩ : Clause)) ++
      ((List.range (L.length - 1)).map fun k =>
          (⟨tag ++ "3", [Neg (signal c (k + 1)), Neg L[k]!]⟩ : Clause)) ++
      (((List.range (L.length - 1)).map fun k =>
          (⟨tag ++ "4", [Neg (signal c k), signal c (k + 1), L[k]!]⟩ : Clause)) ++
        [⟨tag ++ "4", [Neg (signal c (L.length - 1)), L[L.length - 1]!]⟩]) := by
  have hn : 0 < L.length := List.length_pos.2 hL
  have hr : List.range' 1 (L.length - 1) = (List.range (L.length - 1)).map (· + 1) := by
    simp [List.range'_eq_map_range, Nat.add_comm]
  have hr2 : List.range' 1 L.length = (List.range (L.length - 1)).map (· + 1) ++ [L.length] := by
    have e : L.length = (L.length - 1) + 1 := by omega
    conv_lhs => rw [e, List.range'_1_concat, hr]
    congr 2
    omega
  unfold countClauses
  rw [hr, hr2]
  simp only [List.map_map, List.map_append, List.map_cons, List.map_nil, ne_eq, not_true,
    if_false]
  congr 1
  · congr 1
    · congr 1
      · apply List.map_congr_left
        intro k hk
        have hk2 : k < L.length - 1 := List.mem_range.1 hk
        simp only [Function.comp, Nat.add_sub_cancel]
        rw [countAuxs_getElem! c _ k (by omega), countAuxs_getElem! c _ (k + 1) (by omega)]
      · apply List.map_congr_left
        intro k hk
        have hk2 : k < L.length := List.mem_range.1 hk
        rw [countAuxs_getElem! c _ k hk2]
    · apply List.map_congr_left
      intro k hk
      have hk2 : k < L.length - 1 := List.mem_range.1 hk
      simp only [Function.comp, Nat.add_sub_cancel]
      rw [countAuxs_getElem! c _ (k + 1) (by omega)]
  · congr 1
    · apply List.map_congr_left
      intro k hk
      have hk2 : k < L.length - 1 := List.mem_range.1 hk
      have hne : ¬ (k + 1 = L.length) := by omega
      simp only [Function.comp, Nat.add_sub_cancel, hne, not_false_eq_true, if_true]
      rw [countAuxs_getElem! c _ k (by omega), countAuxs_getElem! c _ (k + 1) (by omega)]
    · rw [countAuxs_getElem! c _ (L.length - 1) (by omega)]

theorem exactlyOne_count_eq (cc : CreateCardinality) (tag : String) (L : List Literal)
    (uniqueId : Nat) (hL : L ≠ []) :
    ExactlyOne cc .Count tag L uniqueId =
      some (⟨.Count, [], countClauses tag L (countAuxs uniqueId L.length) ++
        [⟨tag ++ "Ex1", [signal uniqueId 0]⟩]⟩, uniqueId + 1) := by
  have hn : 0 < L.length := List.length_pos.2 hL
  have h0 : (countAuxs uniqueId L.length)[0]? = some (signal uniqueId 0) := by
    rw [List.getElem?_eq_getElem (by simpa [countAuxs] using hn)]
    simp [countAuxs, signal]
  simp only [ExactlyOne, newId, h0]

/-- **C10**: on a list `L` of `n ≥ 1` literals `ExactlyOne(Count, tag, L)` emits,
in this order, the `n-1` clauses `S_{i-1} ∨ ¬S_i`, the `n` clauses
`S_i ∨ ¬L[i]`, the `n-1` clauses `¬S_i ∨ ¬L[i-1]`, the `n-1` three-literal
clauses `¬S_{i-1} ∨ S_i ∨ L[i-1]` followed by the two-literal clause
`¬S_{n-1} ∨ L[n-1]`, and the unit clause `S_0`: `4n-1` clauses. On `[a, b, c]`
the groups have 2, 3, 2 and 3 clauses and the list has 11. -/
theorem exactlyOne_count_clauses (cc : CreateCardinality) (tag : String) (L : List Literal)
    (uniqueId : Nat) (hL : L ≠ []) :
    (∃ t, ExactlyOne cc .Count tag L uniqueId = some (t, uniqueId + 1) ∧
      t.clauses =
        ((List.range (L.length - 1)).map fun k =>
            (⟨tag ++ "1", [signal uniqueId k, Neg (signal uniqueId (k + 1))]⟩ : Clause)) ++
        ((List.range L.length).map fun i =>
            (⟨tag ++ "2", [signal uniqueId i, Neg L[i]!]⟩ : Clause)) ++
        ((List.range (L.length - 1)).map fun k =>
            (⟨tag ++ "3", [Neg (signal uniqueId (k + 1)), Neg L[k]!]⟩ : Clause)) ++
        (((List.range (L.length - 1)).map fun k =>
            (⟨tag ++ "4", [Neg (signal uniqueId k), signal uniqueId (k + 1), L[k]!]⟩ : Clause)) ++
          [⟨tag ++ "4", [Neg (signal uniqueId (L.length - 1)), L[L.length - 1]!]⟩]) ++
        [⟨tag ++ "Ex1", [signal uniqueId 0]⟩] ∧
      t.clauses.length = 4 * L.length - 1) ∧
    ∀ a b c : Literal, ExactlyOne cc .Count tag [a, b, c] uniqueId =
      some (⟨.Count, [],
        [⟨tag ++ "1", [signal uniqueId 0, Neg (signal uniqueId 1)]⟩,
         ⟨tag ++ "1", [signal uniqueId 1, Neg (signal uniqueId 2)]⟩,
         ⟨tag ++ "2", [signal uniqueId 0, Neg a]⟩,
         ⟨tag ++ "2", [signal uniqueId 1, Neg b]⟩,
         ⟨tag ++ "2", [signal uniqueId 2, Neg c]⟩,
         ⟨tag ++ "3", [Neg (signal uniqueId 1), Neg a]⟩,
         ⟨tag ++ "3", [Neg (signal uniqueId 2), Neg b]⟩,
         ⟨tag ++ "4", [Neg (signal uniqueId 0), signal uniqueId 1, a]⟩,
         ⟨tag ++ "4", [Neg (signal uniqueId 1), signal uniqueId 2, b]⟩,
         ⟨tag ++ "4", [Neg (signal uniqueId 2), c]⟩,
         ⟨tag ++ "Ex1", [signal uniqueId 0]⟩]⟩, uniqueId + 1) := by
  constructor
  · refine ⟨_, exactlyOne_count_eq cc tag L uniqueId hL, ?_, ?_⟩
    · simp only []
      rw [countClauses_eq tag L uniqueId hL]
    · have hn : 0 < L.length := List.length_pos.2 hL
      simp only []
      rw [countClauses_eq tag L uniqueId hL]
      simp only [List.length_append, List.length_map, List.length_range, List.length_cons,
        List.length_nil]
      omega
  · intro a b c
    rw [exactlyOne_count_eq cc tag [a, b, c] uniqueId (by simp),
      countClauses_eq tag [a, b, c] uniqueId (by simp)]
    simp [List.range_succ]

theorem exactlyOne_count_clauses_witness :
    ([(⟨true, .P1 "x" 0⟩ : Literal)] ≠ []) ∧
    ∃ t, ExactlyOne (fun _ _ _ _ => []) .Count "t" [⟨true, .P1 "x" 0⟩] 3 = some (t, 3 + 1) ∧
      t.clauses.length = 4 * [(⟨true, .P1 "x" 0⟩ : Literal)].length - 1 :=
  ⟨by decide,
    match (exactlyOne_count_clauses (fun _ _ _ _ => []) "t" [⟨true, .P1 "x" 0⟩] 3 (by decide)).1 with
    | ⟨t, h1, _, h3⟩ => ⟨t, h1, h3⟩⟩

/-! ## Positions and counting -/

theorem countTrue_le_one_iff (σ : Assignment) (L : List Literal) :
    countTrue σ L ≤ 1 ↔
      ∀ i j, i < j → j < L.length → ¬ (L[i]!.eval σ = true ∧ L[j]!.eval σ = true) := by
  induction L with
  | nil => simp [countTrue_nil]
  | cons l rest ih =>
    rw [countTrue_cons]
    constructor
    · intro h i j hij hj
      cases i with
      | zero =>
        cases j with
        | zero => omega
        | succ j =>
          rintro ⟨h0, hj1⟩
          rw [getElem!_cons_succ] at hj1
          have h0' : l.eval σ = true := by simpa using h0
          rw [if_pos h0'] at h
          have hz : countTrue σ rest = 0 := by omega
          have hj2 : j < rest.length := by simpa using hj
          have := (countTrue_eq_zero σ rest).1 hz rest[j] (List.getElem_mem hj2)
          rw [getElem!_pos rest j hj2] at hj1
          simp [this] at hj1
      | succ i =>
        cases j with
        | zero => omega
        | succ j =>
          rw [getElem!_cons_succ, getElem!_cons_succ]
          have hr : countTrue σ rest ≤ 1 := by omega
          exact ih.1 hr i j (by omega) (by simpa using hj)
    · intro h
      have hrest : countTrue σ rest ≤ 1 := by
        apply ih.2
        intro i j hij hj
        have := h (i + 1) (j + 1) (by omega) (by simpa using hj)
        rwa [getElem!_cons_succ, getElem!_cons_succ] at this
      by_cases hl : l.eval σ = true
      · rw [if_pos hl]
        have hz : countTrue σ rest = 0 := by
          rw [countTrue_eq_zero]
          intro m hm
          rcases List.getElem_of_mem hm with ⟨j, hj, rfl⟩
          have := h 0 (j + 1) (by omega) (by simpa using hj)
          rw [getElem!_cons_succ, getElem!_pos rest j hj] at this
          have h0 : (l :: rest)[0]!.eval σ = true := by simpa using hl
          cases hv : rest[j].eval σ with
          | false => rfl
          | true => exact absurd ⟨h0, hv⟩ this
        omega
      · rw [if_neg hl]
        omega

theorem countTrue_pos_iff (σ : Assignment) (L : List Literal) :
    0 < countTrue σ L ↔ ∃ i, i < L.length ∧ L[i]!.eval σ = true := by
  unfold countTrue
  rw [List.countP_pos_iff]
  constructor
  · rintro ⟨l, hl, hv⟩
    rcases List.getElem_of_mem hl with ⟨i, hi, rfl⟩
    exact ⟨i, hi, by rw [getElem!_pos L i hi]; exact hv⟩
  · rintro ⟨i, hi, hv⟩
    rw [getElem!_pos L i hi] at hv
    exact ⟨L[i], List.getElem_mem hi, hv⟩

theorem eval_congr (σ τ : Assignment) (L : List Literal) (h : AgreeOn σ τ L) (i : Nat)
    (hi : i < L.length) : L[i]!.eval τ = L[i]!.eval σ := by
  rw [getElem!_pos L i hi]
  simp [Literal.eval, h L[i] (List.getElem_mem hi)]

/-! ## The sequential counter: semantics -/

theorem eval_signal (τ : Assignment) (c i : Nat) :
    (signal c i).eval τ = τ (Atom.P2 "count" c i) := by
  simp [signal, Literal.eval]

theorem countClauses_nil (tag : String) (auxs : List Literal) : countClauses tag [] auxs = [] := by
  simp [countClauses]

theorem countClauses_satisfies (τ : Assignment) (tag : String) (L : List Literal) (c : Nat)
    (hL : L ≠ []) :
    Satisfies τ (countClauses tag L (countAuxs c L.length)) ↔
      (∀ k, k < L.length - 1 →
          τ (Atom.P2 "count" c (k + 1)) = true → τ (Atom.P2 "count" c k) = true) ∧
      (∀ i, i < L.length → L[i]!.eval τ = true → τ (Atom.P2 "count" c i) = true) ∧
      (∀ k, k < L.length - 1 → τ (Atom.P2 "count" c (k + 1)) = true → L[k]!.eval τ = false) ∧
      (∀ k, k < L.length - 1 → τ (Atom.P2 "count" c k) = true →
          τ (Atom.P2 "count" c (k + 1)) = false → L[k]!.eval τ = true) ∧
      (τ (Atom.P2 "count" c (L.length - 1)) = true → L[L.length - 1]!.eval τ = true) := by
  rw [countClauses_eq tag L c hL]
  simp only [satisfies_append, satisfies_map, List.mem_range, Clause.eval, List.any_cons,
    List.any_nil, Bool.or_false, eval_Neg, eval_signal, and_assoc]
  have hsing : ∀ cl : Clause, Satisfies τ [cl] ↔ cl.eval τ = true := by
    intro cl
    simp [Satisfies]
  rw [hsing]
  simp only [Clause.eval, List.any_cons, List.any_nil, Bool.or_false, eval_Neg, eval_signal]
  refine and_congr ?_ (and_congr ?_ (and_congr ?_ (and_congr ?_ ?_)))
  · refine forall_congr' fun k => forall_congr' fun _ => ?_
    cases τ (Atom.P2 "count" c k) <;> cases τ (Atom.P2 "count" c (k + 1)) <;> simp
  · refine forall_congr' fun k => forall_congr' fun _ => ?_
    cases τ (Atom.P2 "count" c k) <;> cases L[k]!.eval τ <;> simp
  · refine forall_congr' fun k => forall_congr' fun _ => ?_
    cases τ (Atom.P2 "count" c (k + 1)) <;> cases L[k]!.eval τ <;> simp
  · refine forall_congr' fun k => forall_congr' fun _ => ?_
    cases τ (Atom.P2 "count" c k) <;> cases τ (Atom.P2 "count" c (k + 1)) <;>
      cases L[k]!.eval τ <;> simp
  · cases τ (Atom.P2 "count" c (L.length - 1)) <;> cases L[L.length - 1]!.eval τ <;> simp

theorem countExt_signal (σ : Assignment) (L : List Literal) (c i : Nat) (hi : i < L.length) :
    countExt σ L c (Atom.P2 "count" c i) = true ↔
      ∃ j, i ≤ j ∧ j < L.length ∧ L[j]!.eval σ = true := by
  simp only [countExt, hi, and_self, if_true, List.any_eq_true, List.mem_drop_iff_getElem]
  constructor
  · rintro ⟨x, ⟨j, hj, rfl⟩, hx⟩
    refine ⟨i + j, by omega, by omega, ?_⟩
    rw [getElem!_pos L (i + j) (by omega)]
    exact hx
  · rintro ⟨j, hij, hj, hx⟩
    rw [getElem!_pos L j hj] at hx
    refine ⟨L[j], ⟨j - i, by omega, ?_⟩, hx⟩
    congr 1
    omega

theorem countExt_agree (σ : Assignment) (L : List Literal) (c : Nat)
    (hfresh : ∀ l ∈ L, ∀ i, i < L.length → l.atom ≠ Atom.P2 "count" c i) :
    AgreeOn σ (countExt σ L c) L := by
  intro l hl
  cases ha : l.atom with
  | P1 p v => simp [countExt]
  | P2 p c1 i =>
    by_cases h : p = "count" ∧ c1 = c ∧ i < L.length
    · exfalso
      apply hfresh l hl i h.2.2
      rw [ha, h.1, h.2.1]
    · simp [countExt, h]

theorem countExt_satisfies (σ : Assignment) (tag : String) (L : List Literal) (c : Nat)
    (hL : L ≠ [])
    (hfresh : ∀ l ∈ L, ∀ i, i < L.length → l.atom ≠ Atom.P2 "count" c i)
    (hamo : countTrue σ L ≤ 1) :
    Satisfies (countExt σ L c) (countClauses tag L (countAuxs c L.length)) := by
  have hn : 0 < L.length := List.length_pos.2 hL
  have hag := countExt_agree σ L c hfresh
  have hX : ∀ i, i < L.length → L[i]!.eval (countExt σ L c) = L[i]!.eval σ :=
    fun i hi => eval_congr σ _ L hag i hi
  have hidx := (countTrue_le_one_iff σ L).1 hamo
  rw [countClauses_satisfies _ tag L c hL]
  refine ⟨?_, ?_, ?_, ?_, ?_⟩
  · intro k hk h1
    rw [countExt_signal σ L c (k + 1) (by omega)] at h1
    rw [countExt_signal σ L c k (by omega)]
    rcases h1 with ⟨j, h1, h2, h3⟩
    exact ⟨j, by omega, h2, h3⟩
  · intro i hi h1
    rw [hX i hi] at h1
    rw [countExt_signal σ L c i hi]
    exact ⟨i, le_refl i, hi, h1⟩
  · intro k hk h1
    rw [countExt_signal σ L c (k + 1) (by omega)] at h1
    rcases h1 with ⟨j, h1, h2, h3⟩
    rw [hX k (by omega)]
    cases hv : L[k]!.eval σ with
    | false => rfl
    | true => exact absurd ⟨hv, h3⟩ (hidx k j (by omega) h2)
  · intro k hk h1 h2
    rw [countExt_signal σ L c k (by omega)] at h1
    rcases h1 with ⟨j, h1, h3, h4⟩
    rw [hX k (by omega)]
    by_cases hjk : j = k
    · rw [← hjk]
      exact h4
    · have : countExt σ L c (Atom.P2 "count" c (k + 1)) = true := by
        rw [countExt_signal σ L c (k + 1) (by omega)]
        exact ⟨j, by omega, h3, h4⟩
      rw [this] at h2
      cases h2
  · intro h1
    rw [countExt_signal σ L c (L.length - 1) (by omega)] at h1
    rcases h1 with ⟨j, h1, h3, h4⟩
    rw [hX _ (by omega)]
    have : j = L.length - 1 := by omega
    rw [← this]
    exact h4

theorem count_sound (σ τ : Assignment) (tag : String) (L : List Literal) (c : Nat)
    (hag : AgreeOn σ τ L)
    (hsat : Satisfies τ (countClauses tag L (countAuxs c L.length))) :
    countTrue σ L ≤ 1 := by
  by_cases hL : L = []
  · subst hL
    simp [countTrue_nil]
  rw [countClauses_satisfies τ tag L c hL] at hsat
  obtain ⟨hA, hB, hC, -, -⟩ := hsat
  have mono : ∀ d a, a + d < L.length →
      τ (Atom.P2 "count" c (a + d)) = true → τ (Atom.P2 "count" c a) = true := by
    intro d
    induction d with
    | zero => intro a _ h; exact h
    | succ d ih =>
      intro a ha h
      apply ih a (by omega)
      exact hA (a + d) (by omega) h
  rw [countTrue_le_one_iff]
  rintro i j hij hj ⟨hi1, hj1⟩
  rw [← eval_congr σ τ L hag i (by omega)] at hi1
  rw [← eval_congr σ τ L hag j hj] at hj1
  have hSj := hB j hj hj1
  have e : j = (i + 1) + (j - (i + 1)) := by omega
  rw [e] at hSj
  have hS := mono (j - (i + 1)) (i + 1) (by omega) hSj
  have := hC i (by omega) hS
  rw [this] at hi1
  cases hi1

/-- **C3**: when no atom of `L` is one of the prefix signals that the counter
mints, at most one position of `L` is true under `σ` if and only if `σ` can be
extended to the signals so that every clause of `AtMostOne(Count, tag, L)` is
satisfied. -/
theorem atMostOne_count_iff (cc : CreateCardinality) (tag : String) (L : List Literal)
    (uniqueId : Nat) (σ : Assignment)
    (hfresh : ∀ l ∈ L, ∀ i, i < L.length → l.atom ≠ Atom.P2 "count" uniqueId i) :
    countTrue σ L ≤ 1 ↔
      ∃ τ : Assignment, AgreeOn σ τ L ∧
        Satisfies τ (AtMostOne cc .Count tag L uniqueId).1.clauses := by
  simp only [AtMostOne, atMostOneCount, newId]
  constructor
  · intro hamo
    by_cases hL : L = []
    · subst hL
      exact ⟨σ, fun _ _ => rfl, by rw [countClauses_nil]; exact satisfies_nil σ⟩
    · exact ⟨countExt σ L uniqueId, countExt_agree σ L uniqueId hfresh,
        countExt_satisfies σ tag L uniqueId hL hfresh hamo⟩
  · rintro ⟨τ, hag, hsat⟩
    exact count_sound σ τ tag L uniqueId hag hsat

theorem atMostOne_count_iff_witness :
    (∀ l ∈ [(⟨true, .P1 "x" 0⟩ : Literal), ⟨true, .P1 "x" 1⟩], ∀ i,
        i < [(⟨true, .P1 "x" 0⟩ : Literal), ⟨true, .P1 "x" 1⟩].length →
          l.atom ≠ Atom.P2 "count" 0 i) ∧
      (countTrue (fun _ => false) [⟨true, .P1 "x" 0⟩, ⟨true, .P1 "x" 1⟩] ≤ 1 ↔
        ∃ τ : Assignment, AgreeOn (fun _ => false) τ [⟨true, .P1 "x" 0⟩, ⟨true, .P1 "x" 1⟩] ∧
          Satisfies τ (AtMostOne (fun _ _ _ _ => []) .Count "t"
            [⟨true, .P1 "x" 0⟩, ⟨true, .P1 "x" 1⟩] 0).1.clauses) :=
  ⟨by simp, atMostOne_count_iff _ _ _ _ _ (by simp)⟩

theorem count_at_least_one (τ : Assignment) (tag : String) (L : List Literal) (c : Nat)
    (hL : L ≠ [])
    (hsat : Satisfies τ (countClauses tag L (countAuxs c L.length)))
    (h0 : τ (Atom.P2 "count" c 0) = true) :
    ∃ i, i < L.length ∧ L[i]!.eval τ = true := by
  have hn : 0 < L.length := List.length_pos.2 hL
  rw [countClauses_satisfies τ tag L c hL] at hsat
  obtain ⟨-, -, -, hD, hE⟩ := hsat
  by_contra hno
  have hall : ∀ i, i < L.length → L[i]!.eval τ = false := by
    intro i hi
    cases hv : L[i]!.eval τ with
    | false => rfl
    | true => exact absurd ⟨i, hi, hv⟩ hno
  have hS : ∀ k, k < L.length → τ (Atom.P2 "count" c k) = true := by
    intro k
    induction k with
    | zero => intro _; exact h0
    | succ k ih =>
      intro hk
      cases hv : τ (Atom.P2 "count" c (k + 1)) with
      | true => rfl
      | false =>
        have := hD k (by omega) (ih (by omega)) hv
        rw [hall k (by omega)] at this
        cases this
  have := hE (hS (L.length - 1) (by omega))
  rw [hall (L.length - 1) (by omega)] at this
  cases this

/-- **C4**: on a non-empty `L` none of whose atoms is one of the prefix signals
that the counter mints, `ExactlyOne(Count, tag, L)` returns a translation, and
exactly one position of `L` is true under `σ` if and only if `σ` can be
extended to the signals so that every returned clause is satisfied. -/
theorem exactlyOne_count_iff (cc : CreateCardinality) (tag : String) (L : List Literal)
    (uniqueId : Nat) (σ : Assignment) (hL : L ≠ [])
    (hfresh : ∀ l ∈ L, ∀ i, i < L.length → l.atom ≠ Atom.P2 "count" uniqueId i) :
    ∃ t, ExactlyOne cc .Count tag L uniqueId = some (t, uniqueId + 1) ∧
      (countTrue σ L = 1 ↔
        ∃ τ : Assignment, AgreeOn σ τ L ∧ Satisfies τ t.clauses) := by
  have hn : 0 < L.length := List.length_pos.2 hL
  refine ⟨_, exactlyOne_count_eq cc tag L uniqueId hL, ?_⟩
  simp only []
  constructor
  · intro hone
    refine ⟨countExt σ L uniqueId, countExt_agree σ L uniqueId hfresh, ?_⟩
    rw [satisfies_append]
    refine ⟨countExt_satisfies σ tag L uniqueId hL hfresh (by omega), ?_⟩
    intro cl hcl
    rw [List.mem_singleton] at hcl
    subst hcl
    simp only [Clause.eval, List.any_cons, List.any_nil, Bool.or_false, eval_signal]
    rw [countExt_signal σ L uniqueId 0 hn]
    have hpos : 0 < countTrue σ L := by omega
    rcases (countTrue_pos_iff σ L).1 hpos with ⟨i, hi, hv⟩
    exact ⟨i, Nat.zero_le i, hi, hv⟩
  · rintro ⟨τ, hag, hsat⟩
    rw [satisfies_append] at hsat
    have hle := count_sound σ τ tag L uniqueId hag hsat.1
    have h0 : τ (Atom.P2 "count" uniqueId 0) = true := by
      have := hsat.2 ⟨tag ++ "Ex1", [signal uniqueId 0]⟩ (List.mem_singleton.2 rfl)
      simpa only [Clause.eval, List.any_cons, List.any_nil, Bool.or_false, eval_signal] using this
    rcases count_at_least_one τ tag L uniqueId hL hsat.1 h0 with ⟨i, hi, hv⟩
    rw [eval_congr σ τ L hag i hi] at hv
    have hpos := (countTrue_pos_iff σ L).2 ⟨i, hi, hv⟩
    omega

theorem exactlyOne_count_iff_witness :
    ([(⟨true, .P1 "x" 0⟩ : Literal), ⟨true, .P1 "x" 1⟩] ≠ []) ∧
    (∀ l ∈ [(⟨true, .P1 "x" 0⟩ : Literal), ⟨true, .P1 "x" 1⟩], ∀ i,
        i < [(⟨true, .P1 "x" 0⟩ : Literal), ⟨true, .P1 "x" 1⟩].length →
          l.atom ≠ Atom.P2 "count" 0 i) ∧
      ∃ t, ExactlyOne (fun _ _ _ _ => []) .Count "t"
          [⟨true, .P1 "x" 0⟩, ⟨true, .P1 "x" 1⟩] 0 = some (t, 0 + 1) ∧
        (countTrue (fun _ => false) [⟨true, .P1 "x" 0⟩, ⟨true, .P1 "x" 1⟩] = 1 ↔
          ∃ τ : Assignment, AgreeOn (fun _ => false) τ [⟨true, .P1 "x" 0⟩, ⟨true, .P1 "x" 1⟩] ∧
            Satisfies τ t.clauses) :=
  ⟨by simp, by simp, exactlyOne_count_iff _ _ _ _ _ (by simp) (by simp)⟩

/-! ## The split encoding -/

theorem atMostOneSplit_small (tag : String) (L : List Literal) (u : Nat) (h : L.length ≤ 5) :
    atMostOneSplit tag L u = (atMostOneNaive tag L, u) := by
  rw [atMostOneSplit, if_pos h]

theorem atMostOneSplit_large (tag : String) (L : List Literal) (u : Nat) (h : 5 < L.length) :
    atMostOneSplit tag L u =
      (⟨.Split, [⟨true, Atom.P1 "split" u⟩],
        ((L.take (L.length / 2)).map fun l =>
            (⟨tag, [⟨true, Atom.P1 "split" u⟩, Neg l]⟩ : Clause)) ++
          ((L.drop (L.length / 2)).map fun l =>
            (⟨tag, [⟨false, Atom.P1 "split" u⟩, Neg l]⟩ : Clause)) ++
          (atMostOneSplit tag (L.take (L.length / 2)) (u + 1)).1.clauses ++
          (atMostOneSplit tag (L.drop (L.length / 2))
            (atMostOneSplit tag (L.take (L.length / 2)) (u + 1)).2).1.clauses⟩,
        (atMostOneSplit tag (L.drop (L.length / 2))
          (atMostOneSplit tag (L.take (L.length / 2)) (u + 1)).2).2) := by
  rw [atMostOneSplit, if_neg (by omega)]
  rfl

theorem atMostOneSplit_mono (tag : String) (L : List Literal) (u : Nat) :
    u ≤ (atMostOneSplit tag L u).2 := by
  suffices H : ∀ n (L : List Literal) (u : Nat), L.length = n →
      u ≤ (atMostOneSplit tag L u).2 from H L.length L u rfl
  intro n
  induction n using Nat.strong_induction_on with
  | _ n ih =>
    intro L u hn
    by_cases h : L.length ≤ 5
    · rw [atMostOneSplit_small tag L u h]
    · rw [atMostOneSplit_large tag L u (by omega)]
      have h1 := ih (L.take (L.length / 2)).length (by simp; omega) (L.take (L.length / 2))
        (u + 1) rfl
      have h2 := ih (L.drop (L.length / 2)).length (by simp; omega) (L.drop (L.length / 2))
        (atMostOneSplit tag (L.take (L.length / 2)) (u + 1)).2 rfl
      simp only []
      omega

theorem eval_mk (τ : Assignment) (s : Bool) (a : Atom) :
    Literal.eval τ ⟨s, a⟩ = (τ a == s) := rfl

theorem satisfies_half (τ : Assignment) (tag : String) (s : Bool) (a : Atom) (L : List Literal) :
    Satisfies τ (L.map fun l => (⟨tag, [⟨s, a⟩, Neg l]⟩ : Clause)) ↔
      (τ a = s ∨ countTrue τ L = 0) := by
  rw [satisfies_map, countTrue_eq_zero]
  simp only [Clause.eval, List.any_cons, List.any_nil, Bool.or_false, eval_Neg, eval_mk]
  by_cases h : τ a = s
  · simp [h]
  · simp [h]

theorem countTrue_take_drop (τ : Assignment) (L : List Literal) (k : Nat) :
    countTrue τ (L.take k) + countTrue τ (L.drop k) = countTrue τ L := by
  rw [← countTrue_append, List.take_append_drop]

theorem satisfies_of_all_false_naive (τ : Assignment) (tag : String) (L : List Literal)
    (h : countTrue τ L = 0) : Satisfies τ (naiveClauses tag L) := by
  rw [naiveClauses_satisfies]
  omega

theorem agreeOn_of_outside (σ τ : Assignment) (L : List Literal) (P : Atom → Prop)
    (hτ : ∀ a, ¬ P a → τ a = σ a) (hfresh : ∀ l ∈ L, ¬ P l.atom) : AgreeOn σ τ L :=
  fun l hl => hτ l.atom (hfresh l hl)

theorem split_all_false (τ : Assignment) (tag : String) (L : List Literal) (u : Nat)
    (h : countTrue τ L = 0) : Satisfies τ (atMostOneSplit tag L u).1.clauses := by
  suffices H : ∀ n (L : List Literal) (u : Nat), L.length = n → countTrue τ L = 0 →
      Satisfies τ (atMostOneSplit tag L u).1.clauses from H L.length L u rfl h
  intro n
  induction n using Nat.strong_induction_on with
  | _ n ih =>
    intro L u hn h0
    by_cases h : L.length ≤ 5
    · rw [atMostOneSplit_small tag L u h]
      exact satisfies_of_all_false_naive τ tag L h0
    · rw [atMostOneSplit_large tag L u (by omega)]
      have hsum := countTrue_take_drop τ L (L.length / 2)
      simp only [satisfies_append, satisfies_half]
      refine ⟨⟨⟨Or.inr (by omega), Or.inr (by omega)⟩, ?_⟩, ?_⟩
      · exact ih _ (by simp; omega) _ _ rfl (by omega)
      · exact ih _ (by simp; omega) _ _ rfl (by omega)

theorem split_sound (τ : Assignment) (tag : String) (L : List Literal) (u : Nat)
    (h : Satisfies τ (atMostOneSplit tag L u).1.clauses) : countTrue τ L ≤ 1 := by
  suffices H : ∀ n (L : List Literal) (u : Nat), L.length = n →
      Satisfies τ (atMostOneSplit tag L u).1.clauses → countTrue τ L ≤ 1 from
    H L.length L u rfl h
  intro n
  induction n using Nat.strong_induction_on with
  | _ n ih =>
    intro L u hn hs
    by_cases h : L.length ≤ 5
    · rw [atMostOneSplit_small tag L u h] at hs
      exact (naiveClauses_satisfies τ tag L).1 hs
    · rw [atMostOneSplit_large tag L u (by omega)] at hs
      simp only [satisfies_append, satisfies_half] at hs
      obtain ⟨⟨⟨h1, h2⟩, h3⟩, h4⟩ := hs
      have i1 := ih _ (by simp; omega) _ _ rfl h3
      have i2 := ih _ (by simp; omega) _ _ rfl h4
      have hsum := countTrue_take_drop τ L (L.length / 2)
      rcases h1 with h1 | h1
      · rcases h2 with h2 | h2
        · rw [h1] at h2
          cases h2
        · omega
      · omega

theorem split_complete (σ : Assignment) (tag : String) (L : List Literal) (u : Nat)
    (hfresh : ∀ l ∈ L, ∀ id, u ≤ id → l.atom ≠ Atom.P1 "split" id)
    (hamo : countTrue σ L ≤ 1) :
    ∃ τ : Assignment, (∀ a, (∀ id, u ≤ id → a ≠ Atom.P1 "split" id) → τ a = σ a) ∧
      Satisfies τ (atMostOneSplit tag L u).1.clauses := by
  suffices H : ∀ n (L : List Literal) (u : Nat) (σ : Assignment), L.length = n →
      (∀ l ∈ L, ∀ id, u ≤ id → l.atom ≠ Atom.P1 "split" id) → countTrue σ L ≤ 1 →
      ∃ τ : Assignment, (∀ a, (∀ id, u ≤ id → a ≠ Atom.P1 "split" id) → τ a = σ a) ∧
        Satisfies τ (atMostOneSplit tag L u).1.clauses from H L.length L u σ rfl hfresh hamo
  intro n
  induction n using Nat.strong_induction_on with
  | _ n ih =>
    intro L u σ hn hfr hle
    by_cases h : L.length ≤ 5
    · rw [atMostOneSplit_small tag L u h]
      exact ⟨σ, fun _ _ => rfl, (naiveClauses_satisfies σ tag L).2 hle⟩
    · rw [atMostOneSplit_large tag L u (by omega)]
      have hsum := countTrue_take_drop σ L (L.length / 2)
      have hmono := atMostOneSplit_mono tag (L.take (L.length / 2)) (u + 1)
      have hfr1 : ∀ v, u ≤ v → ∀ l ∈ L.take (L.length / 2), ∀ id, v ≤ id →
          l.atom ≠ Atom.P1 "split" id :=
        fun v hv l hl id hid => hfr l (List.mem_of_mem_take hl) id (by omega)
      have hfr2 : ∀ v, u ≤ v → ∀ l ∈ L.drop (L.length / 2), ∀ id, v ≤ id →
          l.atom ≠ Atom.P1 "split" id :=
        fun v hv l hl id hid => hfr l (List.mem_of_mem_drop hl) id (by omega)
      have hupd : ∀ b, AgreeOn σ (Function.update σ (Atom.P1 "split" u) b) L := by
        intro b l hl
        exact Function.update_noteq (hfr l hl u (le_refl u)) _ _
      by_cases hz : countTrue σ (L.drop (L.length / 2)) = 0
      · obtain ⟨τ, hout, hsat⟩ := ih _ (by simp; omega) (L.take (L.length / 2)) (u + 1)
          (Function.update σ (Atom.P1 "split" u) true) rfl (hfr1 (u + 1) (by omega))
          (by
            rw [countTrue_congr σ _ _ (fun l hl => hupd true l (List.mem_of_mem_take hl))]
            omega)
        have haux : τ (Atom.P1 "split" u) = true := by
          rw [hout _ (fun id hid => by simp; omega)]
          simp
        have hσ : ∀ a, (∀ id, u ≤ id → a ≠ Atom.P1 "split" id) → τ a = σ a := by
          intro a ha
          rw [hout a (fun id hid => ha id (by omega))]
          exact Function.update_noteq (ha u (le_refl u)) _ _
        have hag : AgreeOn σ τ L := fun l hl => hσ l.atom (hfr l hl)
        have hz2 : countTrue τ (L.drop (L.length / 2)) = 0 := by
          rw [countTrue_congr σ τ _ (fun l hl => hag l (List.mem_of_mem_drop hl))]
          exact hz
        refine ⟨τ, hσ, ?_⟩
        simp only [satisfies_append, satisfies_half]
        exact ⟨⟨⟨Or.inl haux, Or.inr hz2⟩, hsat⟩, split_all_false τ tag _ _ hz2⟩
      · obtain ⟨τ, hout, hsat⟩ := ih _ (by simp; omega) (L.drop (L.length / 2))
          (atMostOneSplit tag (L.take (L.length / 2)) (u + 1)).2
          (Function.update σ (Atom.P1 "split" u) false) rfl (hfr2 _ (by omega))
          (by
            rw [countTrue_congr σ _ _ (fun l hl => hupd false l (List.mem_of_mem_drop hl))]
            omega)
        have haux : τ (Atom.P1 "split" u) = false := by
          rw [hout _ (fun id hid => by simp; omega)]
          simp
        have hσ : ∀ a, (∀ id, u ≤ id → a ≠ Atom.P1 "split" id) → τ a = σ a := by
          intro a ha
          rw [hout a (fun id hid => ha id (by omega))]
          exact Function.update_noteq (ha u (le_refl u)) _ _
        have hag : AgreeOn σ τ L := fun l hl => hσ l.atom (hfr l hl)
        have hz1 : countTrue τ (L.take (L.length / 2)) = 0 := by
          rw [countTrue_congr σ τ _ (fun l hl => hag l (List.mem_of_mem_take hl))]
          omega
        refine ⟨τ, hσ, ?_⟩
        simp only [satisfies_append, satisfies_half]
        exact ⟨⟨⟨Or.inr hz1, Or.inl haux⟩, split_all_false τ tag _ _ hz1⟩, hsat⟩

/-- **C2**: when no atom of `L` is an atom that the split strategy can mint from
the current counter on, at most one position of `L` is true under `σ` if and
only if `σ` can be extended to the auxiliary atoms so that every clause of
`AtMostOne(Split, tag, L)` is satisfied. -/
theorem atMostOne_split_iff (cc : CreateCardinality) (tag : String) (L : List Literal)
    (uniqueId : Nat) (σ : Assignment)
    (hfresh : ∀ l ∈ L, ∀ id, uniqueId ≤ id → l.atom ≠ Atom.P1 "split" id) :
    countTrue σ L ≤ 1 ↔
      ∃ τ : Assignment, AgreeOn σ τ L ∧
        Satisfies τ (AtMostOne cc .Split tag L uniqueId).1.clauses := by
  simp only [AtMostOne]
  constructor
  · intro hamo
    obtain ⟨τ, hout, hsat⟩ := split_complete σ tag L uniqueId hfresh hamo
    exact ⟨τ, fun l hl => hout l.atom (hfresh l hl), hsat⟩
  · rintro ⟨τ, hag, hsat⟩
    rw [← countTrue_congr σ τ L hag]
    exact split_sound τ tag L uniqueId hsat

theorem atMostOne_split_iff_witness :
    (∀ l ∈ sampleLits, ∀ id, 0 ≤ id → l.atom ≠ Atom.P1 "split" id) ∧
      (countTrue (fun _ => false) sampleLits ≤ 1 ↔
        ∃ τ : Assignment, AgreeOn (fun _ => false) τ sampleLits ∧
          Satisfies τ (AtMostOne (fun _ _ _ _ => []) .Split "t" sampleLits 0).1.clauses) :=
  ⟨by simp [sampleLits], atMostOne_split_iff _ _ _ _ _ (by simp [sampleLits])⟩

/-! ## The Heule encoding -/

theorem atMostOneHeule_small (tag : String) (L : List Literal) (u : Nat) (h : L.length ≤ 5) :
    atMostOneHeule tag L u = (⟨.Heule, [], naiveClauses tag L⟩, u) := by
  rw [atMostOneHeule, if_neg (by omega)]
  rfl

theorem atMostOneHeule_large (tag : String) (L : List Literal) (u : Nat) (h : 5 < L.length) :
    atMostOneHeule tag L u =
      (⟨.Heule,
        ⟨true, Atom.P1 "heule" u⟩ ::
          (atMostOneHeule tag (L.drop 4 ++ [⟨false, Atom.P1 "heule" u⟩]) (u + 1)).1.aux,
        naiveClauses tag (L.take 4 ++ [⟨true, Atom.P1 "heule" u⟩]) ++
          (atMostOneHeule tag (L.drop 4 ++ [⟨false, Atom.P1 "heule" u⟩]) (u + 1)).1.clauses⟩,
        (atMostOneHeule tag (L.drop 4 ++ [⟨false, Atom.P1 "heule" u⟩]) (u + 1)).2) := by
  rw [atMostOneHeule, if_pos (by omega)]
  rfl

theorem countTrue_singleton (τ : Assignment) (l : Literal) :
    countTrue τ [l] = if l.eval τ = true then 1 else 0 := by
  rw [countTrue_cons, countTrue_nil, Nat.zero_add]

theorem heule_sound (τ : Assignment) (tag : String) (L : List Literal) (u : Nat)
    (h : Satisfies τ (atMostOneHeule tag L u).1.clauses) : countTrue τ L ≤ 1 := by
  suffices H : ∀ n (L : List Literal) (u : Nat), L.length = n →
      Satisfies τ (atMostOneHeule tag L u).1.clauses → countTrue τ L ≤ 1 from
    H L.length L u rfl h
  intro n
  induction n using Nat.strong_induction_on with
  | _ n ih =>
    intro L u hn hs
    by_cases h : L.length ≤ 5
    · rw [atMostOneHeule_small tag L u h] at hs
      exact (naiveClauses_satisfies τ tag L).1 hs
    · rw [atMostOneHeule_large tag L u (by omega)] at hs
      simp only [satisfies_append, naiveClauses_satisfies] at hs
      obtain ⟨h1, h2⟩ := hs
      have i2 := ih _ (by simp; omega) _ _ rfl h2
      have hsum := countTrue_take_drop τ L 4
      rw [countTrue_append, countTrue_singleton, eval_mk] at h1 i2
      cases hv : τ (Atom.P1 "heule" u) <;> simp [hv] at h1 i2 <;> omega

theorem heule_complete (σ : Assignment) (tag : String) (L : List Literal) (u : Nat)
    (hfresh : ∀ l ∈ L, ∀ id, u ≤ id → l.atom ≠ Atom.P1 "heule" id)
    (hamo : countTrue σ L ≤ 1) :
    ∃ τ : Assignment, (∀ a, (∀ id, u ≤ id → a ≠ Atom.P1 "heule" id) → τ a = σ a) ∧
      Satisfies τ (atMostOneHeule tag L u).1.clauses := by
  suffices H : ∀ n (L : List Literal) (u : Nat) (σ : Assignment), L.length = n →
      (∀ l ∈ L, ∀ id, u ≤ id → l.atom ≠ Atom.P1 "heule" id) → countTrue σ L ≤ 1 →
      ∃ τ : Assignment, (∀ a, (∀ id, u ≤ id → a ≠ Atom.P1 "heule" id) → τ a = σ a) ∧
        Satisfies τ (atMostOneHeule tag L u).1.clauses from H L.length L u σ rfl hfresh hamo
  intro n
  induction n using Nat.strong_induction_on with
  | _ n ih =>
    intro L u σ hn hfr hle
    by_cases h : L.length ≤ 5
    · rw [atMostOneHeule_small tag L u h]
      exact ⟨σ, fun _ _ => rfl, (naiveClauses_satisfies σ tag L).2 hle⟩
    · rw [atMostOneHeule_large tag L u (by omega)]
      have hsum := countTrue_take_drop σ L 4
      obtain ⟨b, hb1, hb2⟩ : ∃ b : Bool,
          countTrue σ (L.take 4) + (if b = true then 1 else 0) ≤ 1 ∧
          countTrue σ (L.drop 4) + (if b = false then 1 else 0) ≤ 1 := by
        by_cases hz : countTrue σ (L.take 4) = 0
        · exact ⟨true, by simp [hz], by simp; omega⟩
        · exact ⟨false, by simp; omega, by simp; omega⟩
      have hupd : AgreeOn σ (Function.update σ (Atom.P1 "heule" u) b) L := by
        intro l hl
        exact Function.update_noteq (hfr l hl u (le_refl u)) _ _
      have hfront : countTrue (Function.update σ (Atom.P1 "heule" u) b)
          (L.take 4 ++ [⟨true, Atom.P1 "heule" u⟩]) ≤ 1 := by
        rw [countTrue_append, countTrue_singleton, eval_mk,
          countTrue_congr σ _ _ (fun l hl => hupd l (List.mem_of_mem_take hl))]
        simpa using hb1
      have hback : countTrue (Function.update σ (Atom.P1 "heule" u) b)
          (L.drop 4 ++ [⟨false, Atom.P1 "heule" u⟩]) ≤ 1 := by
        rw [countTrue_append, countTrue_singleton, eval_mk,
          countTrue_congr σ _ _ (fun l hl => hupd l (List.mem_of_mem_drop hl))]
        simpa using hb2
      obtain ⟨τ, hout, hsat⟩ := ih _ (by simp; omega)
        (L.drop 4 ++ [⟨false, Atom.P1 "heule" u⟩]) (u + 1)
        (Function.update σ (Atom.P1 "heule" u) b) rfl
        (by
          intro l hl id hid
          rcases List.mem_append.1 hl with hl | hl
          · exact hfr l (List.mem_of_mem_drop hl) id (by omega)
          · rw [List.mem_singleton] at hl
            subst hl
            simp
            omega)
        hback
      have hσ : ∀ a, (∀ id, u ≤ id → a ≠ Atom.P1 "heule" id) → τ a = σ a := by
        intro a ha
        rw [hout a (fun id hid => ha id (by omega))]
        exact Function.update_noteq (ha u (le_refl u)) _ _
      refine ⟨τ, hσ, ?_⟩
      rw [satisfies_append, naiveClauses_satisfies]
      refine ⟨?_, hsat⟩
      rw [countTrue_congr (Function.update σ (Atom.P1 "heule" u) b) τ]
      · exact hfront
      · intro l hl
        apply hout
        intro id hid
        rcases List.mem_append.1 hl with hl | hl
        · exact hfr l (List.mem_of_mem_take hl) id (by omega)
        · rw [List.mem_singleton] at hl
          subst hl
          simp
          omega

/-- **C5**: the Heule recursion is total, and above five literals it runs on
the remainder extended by the negated auxiliary, a list of `n - 3` literals;
when no atom of `L` is an atom that the Heule strategy can mint from the
current counter on, at most one position of `L` is true under `σ` if and only
if `σ` can be extended to the auxiliary atoms so that every clause of
`AtMostOne(Heule, tag, L)` is satisfied. -/
theorem atMostOne_heule_iff (cc : CreateCardinality) (tag : String) (L : List Literal)
    (uniqueId : Nat) (σ : Assignment)
    (hfresh : ∀ l ∈ L, ∀ id, uniqueId ≤ id → l.atom ≠ Atom.P1 "heule" id) :
    (countTrue σ L ≤ 1 ↔
      ∃ τ : Assignment, AgreeOn σ τ L ∧
        Satisfies τ (AtMostOne cc .Heule tag L uniqueId).1.clauses) ∧
    (5 < L.length →
      (L.drop 4 ++ [(⟨false, Atom.P1 "heule" uniqueId⟩ : Literal)]).length = L.length - 3 ∧
      (AtMostOne cc .Heule tag L uniqueId).1.clauses =
        (AtMostOne cc .Naive tag (L.take 4 ++ [⟨true, Atom.P1 "heule" uniqueId⟩])
          (uniqueId + 1)).1.clauses ++
        (AtMostOne cc .Heule tag (L.drop 4 ++ [⟨false, Atom.P1 "heule" uniqueId⟩])
          (uniqueId + 1)).1.clauses) := by
  simp only [AtMostOne]
  refine ⟨⟨?_, ?_⟩, ?_⟩
  · intro hamo
    obtain ⟨τ, hout, hsat⟩ := heule_complete σ tag L uniqueId hfresh hamo
    exact ⟨τ, fun l hl => hout l.atom (hfresh l hl), hsat⟩
  · rintro ⟨τ, hag, hsat⟩
    rw [← countTrue_congr σ τ L hag]
    exact heule_sound τ tag L uniqueId hsat
  · intro h5
    refine ⟨?_, ?_⟩
    · simp
      omega
    · rw [atMostOneHeule_large tag L uniqueId h5]
      rfl

theorem atMostOne_heule_iff_witness :
    (∀ l ∈ sampleLits, ∀ id, 0 ≤ id → l.atom ≠ Atom.P1 "heule" id) ∧
      (countTrue (fun _ => false) sampleLits ≤ 1 ↔
        ∃ τ : Assignment, AgreeOn (fun _ => false) τ sampleLits ∧
          Satisfies τ (AtMostOne (fun _ _ _ _ => []) .Heule "t" sampleLits 0).1.clauses) :=
  ⟨by simp [sampleLits], (atMostOne_heule_iff _ _ _ _ _ (by simp [sampleLits])).1⟩

/-! ## The log encoding -/

theorem buildLogEncoding_small (pred : String) (uId cutoff depth : Nat) (tag : String)
    (L : List Literal) (h : L.length ≤ cutoff) :
    buildLogEncoding pred uId cutoff depth tag L = naiveClauses tag L := by
  rw [buildLogEncoding, if_pos h]
  rfl

theorem buildLogEncoding_large (pred : String) (uId cutoff depth : Nat) (tag : String)
    (L : List Literal) (hc : 1 ≤ cutoff) (h : cutoff < L.length) :
    buildLogEncoding pred uId cutoff depth tag L =
      ((L.take (L.length / 2)).map fun l =>
          (⟨tag, [⟨true, Atom.P2 pred uId depth⟩, Neg l]⟩ : Clause)) ++
        ((L.drop (L.length / 2)).map fun l =>
          (⟨tag, [⟨false, Atom.P2 pred uId depth⟩, Neg l]⟩ : Clause)) ++
        buildLogEncoding pred uId cutoff (depth + 1) tag (L.take (L.length / 2)) ++
        buildLogEncoding pred uId cutoff (depth + 1) tag (L.drop (L.length / 2)) := by
  rw [buildLogEncoding, if_neg (by omega), if_neg (by omega)]

theorem log_all_false (τ : Assignment) (pred : String) (uId cutoff depth : Nat) (tag : String)
    (L : List Literal) (hc : 1 ≤ cutoff) (h : countTrue τ L = 0) :
    Satisfies τ (buildLogEncoding pred uId cutoff depth tag L) := by
  suffices H : ∀ n (L : List Literal) (depth : Nat), L.length = n → countTrue τ L = 0 →
      Satisfies τ (buildLogEncoding pred uId cutoff depth tag L) from H L.length L depth rfl h
  intro n
  induction n using Nat.strong_induction_on with
  | _ n ih =>
    intro L depth hn h0
    by_cases h : L.length ≤ cutoff
    · rw [buildLogEncoding_small pred uId cutoff depth tag L h]
      exact satisfies_of_all_false_naive τ tag L h0
    · rw [buildLogEncoding_large pred uId cutoff depth tag L hc (by omega)]
      have hsum := countTrue_take_drop τ L (L.length / 2)
      simp only [satisfies_append, satisfies_half]
      refine ⟨⟨⟨Or.inr (by omega), Or.inr (by omega)⟩, ?_⟩, ?_⟩
      · exact ih _ (by simp; omega) _ _ rfl (by omega)
      · exact ih _ (by simp; omega) _ _ rfl (by omega)

theorem log_sound (τ : Assignment) (pred : String) (uId cutoff depth : Nat) (tag : String)
    (L : List Literal) (hc : 1 ≤ cutoff)
    (h : Satisfies τ (buildLogEncoding pred uId cutoff depth tag L)) : countTrue τ L ≤ 1 := by
  suffices H : ∀ n (L : List Literal) (depth : Nat), L.length = n →
      Satisfies τ (buildLogEncoding pred uId cutoff depth tag L) → countTrue τ L ≤ 1 from
    H L.length L depth rfl h
  intro n
  induction n using Nat.strong_induction_on with
  | _ n ih =>
    intro L depth hn hs
    by_cases h : L.length ≤ cutoff
    · rw [buildLogEncoding_small pred uId cutoff depth tag L h] at hs
      exact (naiveClauses_satisfies τ tag L).1 hs
    · rw [buildLogEncoding_large pred uId cutoff depth tag L hc (by omega)] at hs
      simp only [satisfies_append, satisfies_half] at hs
      obtain ⟨⟨⟨h1, h2⟩, h3⟩, h4⟩ := hs
      have i1 := ih _ (by simp; omega) _ _ rfl h3
      have i2 := ih _ (by simp; omega) _ _ rfl h4
      have hsum := countTrue_take_drop τ L (L.length / 2)
      rcases h1 with h1 | h1
      · rcases h2 with h2 | h2
        · rw [h1] at h2
          cases h2
        · omega
      · omega

theorem log_complete (σ : Assignment) (pred : String) (uId cutoff depth : Nat) (tag : String)
    (L : List Literal) (hc : 1 ≤ cutoff)
    (hfresh : ∀ l ∈ L, ∀ d, depth ≤ d → l.atom ≠ Atom.P2 pred uId d)
    (hamo : countTrue σ L ≤ 1) :
    ∃ τ : Assignment, (∀ a, (∀ d, depth ≤ d → a ≠ Atom.P2 pred uId d) → τ a = σ a) ∧
      Satisfies τ (buildLogEncoding pred uId cutoff depth tag L) := by
  suffices H : ∀ n (L : List Literal) (depth : Nat) (σ : Assignment), L.length = n →
      (∀ l ∈ L, ∀ d, depth ≤ d → l.atom ≠ Atom.P2 pred uId d) → countTrue σ L ≤ 1 →
      ∃ τ : Assignment, (∀ a, (∀ d, depth ≤ d → a ≠ Atom.P2 pred uId d) → τ a = σ a) ∧
        Satisfies τ (buildLogEncoding pred uId cutoff depth tag L) from
    H L.length L depth σ rfl hfresh hamo
  intro n
  induction n using Nat.strong_induction_on with
  | _ n ih =>
    intro L depth σ hn hfr hle
    by_cases h : L.length ≤ cutoff
    · rw [buildLogEncoding_small pred uId cutoff depth tag L h]
      exact ⟨σ, fun _ _ => rfl, (naiveClauses_satisfies σ tag L).2 hle⟩
    · rw [buildLogEncoding_large pred uId cutoff depth tag L hc (by omega)]
      have hsum := countTrue_take_drop σ L (L.length / 2)
      have hupd : ∀ b, AgreeOn σ (Function.update σ (Atom.P2 pred uId depth) b) L := by
        intro b l hl
        exact Function.update_noteq (hfr l hl depth (le_refl depth)) _ _
      by_cases hz : countTrue σ (L.drop (L.length / 2)) = 0
      · obtain ⟨τ, hout, hsat⟩ := ih _ (by simp; omega) (L.take (L.length / 2)) (depth + 1)
          (Function.update σ (Atom.P2 pred uId depth) true) rfl
          (fun l hl d hd => hfr l (List.mem_of_mem_take hl) d (by omega))
          (by
            rw [countTrue_congr σ _ _ (fun l hl => hupd true l (List.mem_of_mem_take hl))]
            omega)
        have haux : τ (Atom.P2 pred uId depth) = true := by
          rw [hout _ (fun d hd => by simp; omega)]
          simp
        have hσ : ∀ a, (∀ d, depth ≤ d → a ≠ Atom.P2 pred uId d) → τ a = σ a := by
          intro a ha
          rw [hout a (fun d hd => ha d (by omega))]
          exact Function.update_noteq (ha depth (le_refl depth)) _ _
        have hag : AgreeOn σ τ L := fun l hl => hσ l.atom (hfr l hl)
        have hz2 : countTrue τ (L.drop (L.length / 2)) = 0 := by
          rw [countTrue_congr σ τ _ (fun l hl => hag l (List.mem_of_mem_drop hl))]
          exact hz
        refine ⟨τ, hσ, ?_⟩
        simp only [satisfies_append, satisfies_half]
        exact ⟨⟨⟨Or.inl haux, Or.inr hz2⟩, hsat⟩, log_all_false τ pred uId cutoff _ tag _ hc hz2⟩
      · obtain ⟨τ, hout, hsat⟩ := ih _ (by simp; omega) (L.drop (L.length / 2)) (depth + 1)
          (Function.update σ (Atom.P2 pred uId depth) false) rfl
          (fun l hl d hd => hfr l (List.mem_of_mem_drop hl) d (by omega))
          (by
            rw [countTrue_congr σ _ _ (fun l hl => hupd false l (List.mem_of_mem_drop hl))]
            omega)
        have haux : τ (Atom.P2 pred uId depth) = false := by
          rw [hout _ (fun d hd => by simp; omega)]
          simp
        have hσ : ∀ a, (∀ d, depth ≤ d → a ≠ Atom.P2 pred uId d) → τ a = σ a := by
          intro a ha
          rw [hout a (fun d hd => ha d (by omega))]
          exact Function.update_noteq (ha depth (le_refl depth)) _ _
        have hag : AgreeOn σ τ L := fun l hl => hσ l.atom (hfr l hl)
        have hz1 : countTrue τ (L.take (L.length / 2)) = 0 := by
          rw [countTrue_congr σ τ _ (fun l hl => hag l (List.mem_of_mem_take hl))]
          omega
        refine ⟨τ, hσ, ?_⟩
        simp only [satisfies_append, satisfies_half]
        exact ⟨⟨⟨Or.inr hz1, Or.inl haux⟩, log_all_false τ pred uId cutoff _ tag _ hc hz1⟩, hsat⟩

/-- **C6**: when no atom of `L` is one of the depth-keyed atoms of the run id
that `AtMostOne(Log, ..)` draws, at most one position of `L` is true under `σ`
if and only if `σ` can be extended to those atoms so that every clause of
`AtMostOne(Log, tag, L)`, built by `buildLogEncoding` with cutoff 5 from depth
0, is satisfied. -/
theorem atMostOne_log_iff (cc : CreateCardinality) (tag : String) (L : List Literal)
    (uniqueId : Nat) (σ : Assignment)
    (hfresh : ∀ l ∈ L, ∀ d, l.atom ≠ Atom.P2 "logE" uniqueId d) :
    (AtMostOne cc .Log tag L uniqueId).1.clauses =
        buildLogEncoding "logE" uniqueId 5 0 tag L ∧
    (countTrue σ L ≤ 1 ↔
      ∃ τ : Assignment, AgreeOn σ τ L ∧
        Satisfies τ (AtMostOne cc .Log tag L uniqueId).1.clauses) := by
  simp only [AtMostOne, newId, true_and]
  constructor
  · intro hamo
    obtain ⟨τ, hout, hsat⟩ := log_complete σ "logE" uniqueId 5 0 tag L (by omega)
      (fun l hl d _ => hfresh l hl d) hamo
    exact ⟨τ, fun l hl => hout l.atom (fun d _ => hfresh l hl d), hsat⟩
  · rintro ⟨τ, hag, hsat⟩
    rw [← countTrue_congr σ τ L hag]
    exact log_sound τ "logE" uniqueId 5 0 tag L (by omega) hsat

theorem atMostOne_log_iff_witness :
    (∀ l ∈ sampleLits, ∀ d, l.atom ≠ Atom.P2 "logE" 0 d) ∧
      (countTrue (fun _ => false) sampleLits ≤ 1 ↔
        ∃ τ : Assignment, AgreeOn (fun _ => false) τ sampleLits ∧
          Satisfies τ (AtMostOne (fun _ _ _ _ => []) .Log "t" sampleLits 0).1.clauses) :=
  ⟨by simp [sampleLits], (atMostOne_log_iff _ _ _ _ _ (by simp [sampleLits])).2⟩

/-! ## Binary digits -/

theorem binaryAux_getD (fuel n : Nat) (h : n < fuel) (i : Nat) :
    (binaryAux fuel n).getD i 0 = n / 2 ^ i % 2 := by
  induction fuel generalizing n i with
  | zero => omega
  | succ fuel ih =>
    unfold binaryAux
    by_cases h2 : n < 2
    · rw [if_pos h2]
      cases i with
      | zero => simp; omega
      | succ i =>
        have : n / 2 ^ (i + 1) = 0 := by
          apply Nat.div_eq_of_lt
          have : 2 ^ 1 ≤ 2 ^ (i + 1) := Nat.pow_le_pow_right (by omega) (by omega)
          omega
        simp [this]
    · rw [if_neg h2]
      cases i with
      | zero => simp
      | succ i =>
        rw [List.getD_cons_succ, ih (n / 2) (by omega) i, Nat.pow_succ, Nat.mul_comm,
          Nat.div_div_eq_div_mul]

theorem binaryAux_length_pos (fuel n : Nat) (h : n < fuel) : 0 < (binaryAux fuel n).length := by
  cases fuel with
  | zero => omega
  | succ fuel =>
    unfold binaryAux
    by_cases h2 : n < 2
    · simp [h2]
    · simp [h2]

theorem binaryAux_lt_pow (fuel n : Nat) (h : n < fuel) : n < 2 ^ (binaryAux fuel n).length := by
  induction fuel generalizing n with
  | zero => omega
  | succ fuel ih =>
    unfold binaryAux
    by_cases h2 : n < 2
    · simp [h2]
    · rw [if_neg h2, List.length_cons, Nat.pow_succ]
      have := ih (n / 2) (by omega)
      omega

theorem binaryAux_pow_le (fuel n : Nat) (h : n < fuel) (hn : 0 < n) :
    2 ^ ((binaryAux fuel n).length - 1) ≤ n := by
  induction fuel generalizing n with
  | zero => omega
  | succ fuel ih =>
    unfold binaryAux
    by_cases h2 : n < 2
    · simp [h2]
      omega
    · rw [if_neg h2, List.length_cons, Nat.add_sub_cancel]
      have := ih (n / 2) (by omega) (by omega)
      have hpos := binaryAux_length_pos fuel (n / 2) (by omega)
      have e : (binaryAux fuel (n / 2)).length = ((binaryAux fuel (n / 2)).length - 1) + 1 := by
        omega
      rw [e, Nat.pow_succ]
      omega

theorem binaryAux_mono (fuel m n : Nat) (hm : m < fuel) (hn : n < fuel) (hmn : m ≤ n) :
    (binaryAux fuel m).length ≤ (binaryAux fuel n).length := by
  induction fuel generalizing m n with
  | zero => omega
  | succ fuel ih =>
    unfold binaryAux
    by_cases h2 : n < 2
    · have : m < 2 := by omega
      simp [h2, this]
    · by_cases h3 : m < 2
      · simp [h2, h3]
      · rw [if_neg h2, if_neg h3, List.length_cons, List.length_cons]
        have := ih (m / 2) (n / 2) (by omega) (by omega) (Nat.div_le_div_right hmn)
        omega

theorem binaryAux_fuel (f1 f2 n : Nat) (h1 : n < f1) (h2 : n < f2) :
    binaryAux f1 n = binaryAux f2 n := by
  induction f1 generalizing f2 n with
  | zero => omega
  | succ f1 ih =>
    cases f2 with
    | zero => omega
    | succ f2 =>
      unfold binaryAux
      by_cases h : n < 2
      · simp [h]
      · rw [if_neg h, if_neg h, ih f2 (n / 2) (by omega) (by omega)]

/-- Digit `j` of the binary representation that `Binary` returns. -/
theorem Binary_getD (n : Int) (j : Nat) : (Binary n).getD j 0 = n.toNat / 2 ^ j % 2 :=
  binaryAux_getD _ _ (Nat.lt_succ_self _) j

theorem Binary_length_pos (n : Int) : 0 < (Binary n).length :=
  binaryAux_length_pos _ _ (Nat.lt_succ_self _)

theorem Binary_lt_pow (n : Int) : n.toNat < 2 ^ (Binary n).length :=
  binaryAux_lt_pow _ _ (Nat.lt_succ_self _)

theorem Binary_pow_le (n : Int) (hn : 0 < n) : 2 ^ ((Binary n).length - 1) ≤ n.toNat :=
  binaryAux_pow_le _ _ (Nat.lt_succ_self _) (by omega)

theorem Binary_length_mono (m n : Int) (h : m ≤ n) : (Binary m).length ≤ (Binary n).length := by
  unfold Binary
  have hmn : m.toNat ≤ n.toNat := Int.toNat_le_toNat h
  rw [binaryAux_fuel (m.toNat + 1) (n.toNat + 1) m.toNat (by omega) (by omega)]
  exact binaryAux_mono _ _ _ (by omega) (by omega) hmn

theorem Binary_getElem? (n : Int) (j : Nat) (h : j < (Binary n).length) :
    (Binary n)[j]? = some (n.toNat / 2 ^ j % 2) := by
  have := Binary_getD n j
  rw [List.getD_eq_getElem?_getD, List.getElem?_eq_getElem h] at this
  rw [List.getElem?_eq_getElem h]
  simpa using this

theorem binary_expansion (w N : Nat) :
    (Finset.range N).sum (fun j => 2 ^ j * (w / 2 ^ j % 2)) = w % 2 ^ N := by
  induction N with
  | zero => simp [Nat.mod_one]
  | succ N ih => rw [Finset.sum_range_succ, ih, Nat.mod_pow_succ]

/-! ## The halving circuit -/

theorem halveLoop_spec {W : Type} (odd : Nat) (out : List W) :
    ∀ (j : Nat) (bIn : List W),
      (∀ k, k < out.length → (j + k) % 2 = odd → (j + k) / 2 < bIn.length) →
      ∃ R, halveLoop odd j out bIn = some R ∧ R.length = bIn.length ∧
        ∀ p, R[p]? =
          if j ≤ 2 * p + odd ∧ 2 * p + odd < j + out.length ∧ (2 * p + odd) % 2 = odd ∧
              p < bIn.length then
            out[2 * p + odd - j]?
          else bIn[p]? := by
  induction out with
  | nil =>
    intro j bIn _
    refine ⟨bIn, rfl, rfl, ?_⟩
    intro p
    rw [if_neg (fun h => by have := h.2.1; simp at this; omega)]
  | cons x out ih =>
    intro j bIn hin
    by_cases hj : j % 2 = odd
    · have hlt : j / 2 < bIn.length := hin 0 (by simp) (by simpa using hj)
      obtain ⟨R, hR, hlen, hget⟩ := ih (j + 1) (bIn.set (j / 2) x) (by
        intro k hk hk2
        rw [List.length_set]
        have := hin (k + 1) (by simp; omega) (by rw [← hk2]; congr 1; omega)
        rw [show j + (k + 1) = j + 1 + k by omega] at this
        exact this)
      refine ⟨R, ?_, ?_, ?_⟩
      · rw [halveLoop, if_pos hj, if_pos hlt]
        exact hR
      · rw [hlen, List.length_set]
      · intro p
        rw [hget p, List.length_set, List.length_cons, List.getElem?_set]
        by_cases hp : 2 * p + odd = j
        · have hpj : j / 2 = p := by omega
          rw [if_neg (by omega), if_pos hpj, if_pos hlt, if_pos (by omega)]
          have : 2 * p + odd - j = 0 := by omega
          rw [this]
          simp
        · by_cases hc : j + 1 ≤ 2 * p + odd ∧ 2 * p + odd < j + 1 + out.length ∧
              (2 * p + odd) % 2 = odd ∧ p < bIn.length
          · rw [if_pos hc, if_pos (by omega)]
            have : 2 * p + odd - j = (2 * p + odd - (j + 1)) + 1 := by omega
            rw [this, List.getElem?_cons_succ]
          · have hq : ¬ (j / 2 = p) := by omega
            rw [if_neg hc, if_neg hq, if_neg (by omega)]
    · obtain ⟨R, hR, hlen, hget⟩ := ih (j + 1) bIn (by
        intro k hk hk2
        have := hin (k + 1) (by simp; omega) (by rw [← hk2]; congr 1; omega)
        rw [show j + (k + 1) = j + 1 + k by omega] at this
        exact this)
      refine ⟨R, ?_, hlen, ?_⟩
      · rw [halveLoop, if_neg hj]
        exact hR
      · intro p
        rw [hget p, List.length_cons]
        by_cases hc : j + 1 ≤ 2 * p + odd ∧ 2 * p + odd < j + 1 + out.length ∧
            (2 * p + odd) % 2 = odd ∧ p < bIn.length
        · rw [if_pos hc, if_pos (by omega)]
          have : 2 * p + odd - j = (2 * p + odd - (j + 1)) + 1 := by omega
          rw [this, List.getElem?_cons_succ]
        · rw [if_neg hc, if_neg]
          intro hc2
          apply hc
          refine ⟨?_, by omega, hc2.2.2.1, hc2.2.2.2⟩
          by_contra hlt
          have : 2 * p + odd = j := by omega
          rw [this] at hc2
          exact hj hc2.2.2.1

/-- The halving circuit never writes outside `bIn`; it keeps the wires at the
even positions when the tare bit is set, and the wires at the odd positions
when it is not. -/
theorem halve_spec {W : Type} [Inhabited W] (tareBit : Bool) (out : List W) :
    ∃ R, halve tareBit out = some R ∧
      R.length = (out.length + (if tareBit then 1 else 0)) / 2 ∧
      ∀ p, p < R.length → R[p]? = out[2 * p + (if tareBit then 0 else 1)]? := by
  cases tareBit with
  | true =>
    obtain ⟨R, hR, hlen, hget⟩ := halveLoop_spec 0 out 0
      (List.replicate ((out.length + 1) / 2) (default : W)) (by
        intro k hk _
        rw [List.length_replicate]
        omega)
    rw [List.length_replicate] at hlen
    refine ⟨R, ?_, by simpa using hlen, ?_⟩
    · simp only [halve, if_true]
      exact hR
    · intro p hp
      rw [hget p, List.length_replicate, if_pos (by omega)]
      simp
  | false =>
    obtain ⟨R, hR, hlen, hget⟩ := halveLoop_spec 1 out 0
      (List.replicate (out.length / 2) (default : W)) (by
        intro k hk _
        rw [List.length_replicate]
        omega)
    rw [List.length_replicate] at hlen
    refine ⟨R, ?_, by simpa using hlen, ?_⟩
    · simp only [halve]
      exact hR
    · intro p hp
      rw [hget p, List.length_replicate, if_pos (by omega)]
      simp

theorem unary_length (c m : Nat) (h : c ≤ m) : (unary c m).length = m := by
  simp [unary]
  omega

theorem unary_getElem? (c m q : Nat) (h : c ≤ m) :
    (unary c m)[q]? = if q < m then some (decide (q < c)) else none := by
  unfold unary
  rw [List.getElem?_append, List.length_replicate, List.getElem?_replicate,
    List.getElem?_replicate]
  by_cases h1 : q < c
  · simp [h1]
    omega
  · by_cases h2 : q < m
    · rw [if_neg h1, if_pos (by omega), if_pos h2]
      simp [h1]
    · rw [if_neg h1, if_neg (by omega), if_neg h2]

/-- Halving a sorted column: the unary number `c` on `m` wires becomes the
unary number `(c + tareBit) / 2` on `(m + tareBit) / 2` wires. -/
theorem halve_unary (tareBit : Bool) (c m : Nat) (h : c ≤ m) :
    halve tareBit (unary c m) =
      some (unary ((c + (if tareBit then 1 else 0)) / 2) ((m + (if tareBit then 1 else 0)) / 2)) := by
  obtain ⟨R, hR, hlen, hget⟩ := halve_spec tareBit (unary c m)
  rw [hR]
  congr 1
  rw [unary_length c m h] at hlen
  apply List.ext_getElem?
  intro p
  by_cases hp : p < R.length
  · rw [hget p hp, unary_getElem? c m _ h, unary_getElem? _ _ _ (by cases tareBit <;> simp <;> omega)]
    cases tareBit
    · simp only [Bool.false_eq_true, if_false, Nat.add_zero] at hlen hp ⊢
      rw [if_pos (by omega), if_pos (by omega)]
      congr 1
      rw [decide_eq_decide]
      omega
    · simp only [if_true, Nat.add_zero] at hlen hp ⊢
      rw [if_pos (by omega), if_pos (by omega)]
      congr 1
      rw [decide_eq_decide]
      omega
  · rw [List.getElem?_eq_none (by omega), unary_getElem? _ _ _ (by cases tareBit <;> simp <;> omega),
      if_neg (by omega)]

/-! ## Columns as numbers -/

theorem sortDesc_eq_unary (xs : List Bool) : sortDesc xs = unary (xs.count true) xs.length := by
  unfold sortDesc unary
  have := List.count_true_add_count_false xs
  congr 2
  omega

theorem count_true_unary (c m : Nat) : (unary c m).count true = c := by
  simp [unary, List.count_append, List.count_replicate]

theorem sortDesc_unary (c m : Nat) (h : c ≤ m) : sortDesc (unary c m) = unary c m := by
  rw [sortDesc_eq_unary, count_true_unary, unary_length c m h]

theorem addBits_spec (bin : List Nat) :
    ∀ (j : Nat) (bs bs1 : List Nat), addBits j bin bs = some bs1 →
      bs1.length = bs.length ∧ (bin ≠ [] → j + bin.length ≤ bs.length) ∧
      ∀ k, k < bs.length →
        bs1.getD k 0 = bs.getD k 0 + (if j ≤ k then bin.getD (k - j) 0 else 0) := by
  induction bin with
  | nil =>
    intro j bs bs1 h
    simp only [addBits, Option.some.injEq] at h
    subst h
    refine ⟨rfl, fun h => absurd rfl h, ?_⟩
    intro k _
    simp
  | cons x bin ih =>
    intro j bs bs1 h
    rw [addBits] at h
    cases hs : bs[j]? with
    | none => rw [hs] at h; cases h
    | some s =>
      rw [hs] at h
      have hj : j < bs.length := by
        by_contra hn
        rw [List.getElem?_eq_none (by omega)] at hs
        cases hs
      obtain ⟨h1, h2, h3⟩ := ih (j + 1) _ bs1 h
      rw [List.length_set] at h1 h2 h3
      refine ⟨h1, ?_, ?_⟩
      · intro _
        by_cases hb : bin = []
        · subst hb
          simp
          omega
        · have := h2 hb
          simp
          omega
      · intro k hk
        rw [h3 k hk]
        have hsD : bs.getD j 0 = s := by
          rw [List.getD_eq_getElem?_getD, hs]
          rfl
        by_cases hkj : k = j
        · subst hkj
          rw [if_neg (by omega), if_pos (le_refl _), Nat.sub_self, List.getD_cons_zero,
            List.getD_eq_getElem?_getD, List.getElem?_set_self hk, hsD]
          simp
        · rw [List.getD_eq_getElem?_getD, List.getElem?_set_ne (Ne.symm hkj),
            ← List.getD_eq_getElem?_getD]
          by_cases hlt : j ≤ k
          · rw [if_pos (by omega), if_pos hlt]
            have : k - j = (k - (j + 1)) + 1 := by omega
            rw [this, List.getD_cons_succ]
          · rw [if_neg (by omega), if_neg hlt]

theorem sizeLoop_spec (es : List Entry) :
    ∀ (bs : List Nat) (mw : Int) (bs1 : List Nat) (mw1 : Int),
      sizeLoop es (bs, mw) = some (bs1, mw1) →
      bs1.length = bs.length ∧ (∀ e ∈ es, (Binary e.weight).length ≤ bs.length) ∧
      (∀ k, k < bs.length →
        bs1.getD k 0 = bs.getD k 0 + (es.map fun e => (Binary e.weight).getD k 0).sum) ∧
      mw1 = maxWeightFrom es mw := by
  induction es with
  | nil =>
    intro bs mw bs1 mw1 h
    simp only [sizeLoop, Option.some.injEq, Prod.mk.injEq] at h
    obtain ⟨rfl, rfl⟩ := h
    exact ⟨rfl, fun e he => (by cases he), fun k _ => (by simp), rfl⟩
  | cons e es ih =>
    intro bs mw bs1 mw1 h
    rw [sizeLoop] at h
    cases ha : addBits 0 (Binary e.weight) bs with
    | none => simp only [ha] at h; cases h
    | some bs2 =>
      simp only [ha] at h
      obtain ⟨a1, a2, a3⟩ := addBits_spec _ 0 bs bs2 ha
      obtain ⟨i1, i2, i3, i4⟩ := ih _ _ bs1 mw1 h
      have hne : Binary e.weight ≠ [] := by
        intro h0
        have := Binary_length_pos e.weight
        rw [h0] at this
        cases this
      refine ⟨by rw [i1, a1], ?_, ?_, ?_⟩
      · intro e1 he1
        rcases List.mem_cons.1 he1 with rfl | h1
        · have := a2 hne
          omega
        · have := i2 e1 h1
          omega
      · intro k hk
        rw [i3 k (by omega), a3 k hk, List.map_cons, List.sum_cons]
        simp only [Nat.zero_le, if_true, Nat.sub_zero]
        omega
      · rw [i4]
        rfl

theorem allocBags_spec (is : List Nat) (bagSize : List Nat) :
    ∀ bags, allocBags is bagSize = some bags →
      (∀ i ∈ is, i < bagSize.length) ∧
      bags = is.map fun i => List.replicate (bagSize.getD i 0) (default : Literal) := by
  induction is with
  | nil =>
    intro bags h
    simp only [allocBags, Option.some.injEq] at h
    subst h
    exact ⟨fun i hi => (by cases hi), rfl⟩
  | cons i is ih =>
    intro bags h
    rw [allocBags] at h
    cases hs : bagSize[i]? with
    | none => simp only [hs] at h; cases h
    | some s =>
      simp only [hs] at h
      cases hr : allocBags is bagSize with
      | none => simp only [hr] at h; cases h
      | some rest =>
        simp only [hr, Option.some.injEq] at h
        subst h
        obtain ⟨r1, r2⟩ := ih rest hr
        have hi : i < bagSize.length := by
          by_contra hn
          rw [List.getElem?_eq_none (by omega)] at hs
          cases hs
        refine ⟨?_, ?_⟩
        · intro k hk
          rcases List.mem_cons.1 hk with rfl | h1
          · exact hi
          · exact r1 k h1
        · rw [List.map_cons, ← r2, List.getD_eq_getElem?_getD, hs]
          rfl

theorem placeBits_spec (lit : Literal) (bin : List Nat) :
    ∀ (j : Nat) (st st1 : List (List Literal) × List Nat), placeBits lit j bin st = some st1 →
      st1.1.length = st.1.length ∧ st1.2.length = st.2.length ∧
      ∀ k,
        (j ≤ k ∧ bin.getD (k - j) 0 = 1 →
          ∃ bag pos, st.1[k]? = some bag ∧ st.2[k]? = some pos ∧ pos < bag.length ∧
            st1.1[k]? = some (bag.set pos lit) ∧ st1.2[k]? = some (pos + 1)) ∧
        (¬ (j ≤ k ∧ bin.getD (k - j) 0 = 1) → st1.1[k]? = st.1[k]? ∧ st1.2[k]? = st.2[k]?) := by
  induction bin with
  | nil =>
    intro j st st1 h
    simp only [placeBits, Option.some.injEq] at h
    subst h
    refine ⟨rfl, rfl, fun k => ⟨?_, fun _ => ⟨rfl, rfl⟩⟩⟩
    rintro ⟨_, h⟩
    simp at h
  | cons x bin ih =>
    intro j st st1 h
    rw [placeBits] at h
    by_cases hx : x = 1
    · rw [if_pos hx] at h
      cases hb : st.1[j]? with
      | none => simp only [hb] at h; cases h
      | some bag0 =>
        cases hp : st.2[j]? with
        | none => simp only [hb, hp] at h; cases h
        | some pos0 =>
          simp only [hb, hp] at h
          by_cases hlt : pos0 < bag0.length
          · rw [if_pos hlt] at h
            have hj1 : j < st.1.length := by
              by_contra hn
              rw [List.getElem?_eq_none (by omega)] at hb
              cases hb
            have hj2 : j < st.2.length := by
              by_contra hn
              rw [List.getElem?_eq_none (by omega)] at hp
              cases hp
            obtain ⟨l1, l2, hk⟩ := ih (j + 1) _ st1 h
            simp only [List.length_set] at l1 l2
            refine ⟨l1, l2, fun k => ?_⟩
            by_cases hkj : k = j
            · subst hkj
              have := (hk k).2 (by omega)
              simp only [List.getElem?_set_self hj1, List.getElem?_set_self hj2] at this
              refine ⟨fun _ => ⟨bag0, pos0, hb, hp, hlt, this.1, this.2⟩, ?_⟩
              intro hn
              exfalso
              apply hn
              simp [hx]
            · have hne : ¬ (j = k) := fun h => hkj h.symm
              have hkk := hk k
              simp only [List.getElem?_set_ne hne] at hkk
              by_cases hjk : j ≤ k
              · have e : k - j = (k - (j + 1)) + 1 := by omega
                rw [e, List.getD_cons_succ]
                refine ⟨fun hc => hkk.1 ⟨by omega, hc.2⟩, fun hc => hkk.2 ?_⟩
                intro hc2
                exact hc ⟨hjk, hc2.2⟩
              · refine ⟨fun hc => absurd hc.1 hjk, fun _ => hkk.2 ?_⟩
                intro hc2
                omega
          · rw [if_neg hlt] at h
            cases h
    · rw [if_neg hx] at h
      obtain ⟨l1, l2, hk⟩ := ih (j + 1) _ st1 h
      refine ⟨l1, l2, fun k => ?_⟩
      by_cases hkj : k = j
      · subst hkj
        refine ⟨?_, fun _ => (hk k).2 (by omega)⟩
        rintro ⟨_, hc⟩
        simp at hc
        exact absurd hc hx
      · by_cases hjk : j ≤ k
        · have e : k - j = (k - (j + 1)) + 1 := by omega
          rw [e, List.getD_cons_succ]
          refine ⟨fun hc => (hk k).1 ⟨by omega, hc.2⟩, fun hc => (hk k).2 ?_⟩
          intro hc2
          exact hc ⟨hjk, hc2.2⟩
        · refine ⟨fun hc => absurd hc.1 hjk, fun _ => (hk k).2 ?_⟩
          intro hc2
          omega

theorem bagSpec_nil (j : Nat) : bagSpec [] j = [] := rfl

theorem bagSpec_append_singleton (P : List Entry) (e : Entry) (j : Nat) :
    bagSpec (P ++ [e]) j = bagSpec P j ++ (if hasBit j e = true then [e.literal] else []) := by
  unfold bagSpec
  rw [List.filter_append, List.map_append]
  by_cases h : hasBit j e = true
  · simp [h]
  · simp [h]

theorem set_append_replicate (xs : List Literal) (r : Nat) (lit : Literal) (hr : 0 < r) :
    (xs ++ List.replicate r default).set xs.length lit =
      (xs ++ [lit]) ++ List.replicate (r - 1) default := by
  obtain ⟨r, rfl⟩ : ∃ r1, r = r1 + 1 := ⟨r - 1, by omega⟩
  rw [List.set_append_right _ _ (le_refl _), Nat.sub_self, List.replicate_succ, List.set_cons_zero,
    Nat.add_sub_cancel, List.append_assoc]
  rfl

/-- State of the last pass after the entries `P`: bag `j` starts with the
literals of the entries of `P` that have bit `j`, the rest of its `sizes j`
cells is still empty, and `bagPos[j]` counts the literals placed. -/
theorem placeLoop_inv (sizes : Nat → Nat) (N nB : Nat) (es : List Entry) :
    ∀ (P : List Entry) (st st1 : List (List Literal) × List Nat),
      placeLoop es st = some st1 →
      (st.1.length = N ∧ st.2.length = nB ∧ ∀ j, j < N →
        st.2[j]? = some (bagSpec P j).length ∧
        st.1[j]? = some (bagSpec P j ++
          List.replicate (sizes j - (bagSpec P j).length) default)) →
      (st1.1.length = N ∧ st1.2.length = nB ∧ ∀ j, j < N →
        st1.2[j]? = some (bagSpec (P ++ es) j).length ∧
        st1.1[j]? = some (bagSpec (P ++ es) j ++
          List.replicate (sizes j - (bagSpec (P ++ es) j).length) default)) := by
  induction es with
  | nil =>
    intro P st st1 h hinv
    simp only [placeLoop, Option.some.injEq] at h
    subst h
    simpa using hinv
  | cons e es ih =>
    intro P st st1 h hinv
    rw [placeLoop] at h
    cases hp : placeBits e.literal 0 (Binary e.weight) st with
    | none => simp only [hp] at h; cases h
    | some st2 =>
      simp only [hp] at h
      obtain ⟨l1, l2, hk⟩ := placeBits_spec _ _ 0 st st2 hp
      have := ih (P ++ [e]) st2 st1 h ?_
      · simpa using this
      · refine ⟨by rw [l1, hinv.1], by rw [l2, hinv.2.1], ?_⟩
        intro j hj
        obtain ⟨i1, i2⟩ := hinv.2.2 j hj
        rw [bagSpec_append_singleton]
        by_cases hb : hasBit j e = true
        · have hb2 : (Binary e.weight).getD j 0 = 1 := by simpa [hasBit] using hb
          obtain ⟨bag, pos, h1, h2, h3, h4, h5⟩ := (hk j).1 ⟨Nat.zero_le _, by simpa using hb2⟩
          rw [i1] at h2
          rw [i2] at h1
          simp only [Option.some.injEq] at h1 h2
          subst h1 h2
          rw [h4, h5, if_pos hb]
          rw [List.length_append, List.length_replicate] at h3
          refine ⟨by simp, ?_⟩
          rw [set_append_replicate _ _ _ (by omega)]
          congr 2
          simp
          omega
        · have hb2 : ¬ (0 ≤ j ∧ (Binary e.weight).getD (j - 0) 0 = 1) := by
            rintro ⟨_, hc⟩
            apply hb
            simpa [hasBit] using hc
          obtain ⟨h4, h5⟩ := (hk j).2 hb2
          rw [h4, h5, if_neg hb, List.append_nil]
          exact ⟨i1, i2⟩

theorem bit_lt_two (e : Entry) (j : Nat) : (Binary e.weight).getD j 0 < 2 := by
  rw [Binary_getD]
  exact Nat.mod_lt _ (by omega)

theorem sum_bits_eq_length (es : List Entry) (j : Nat) :
    (es.map fun e => (Binary e.weight).getD j 0).sum = (bagSpec es j).length := by
  unfold bagSpec
  induction es with
  | nil => rfl
  | cons e es ih =>
    rw [List.map_cons, List.sum_cons, ih, List.filter_cons]
    have h2 := bit_lt_two e j
    by_cases h : (Binary e.weight).getD j 0 = 1
    · have hb : hasBit j e = true := decide_eq_true h
      rw [if_pos hb, h]
      simp
      omega
    · have hb : ¬ (hasBit j e = true) := fun hc => h (of_decide_eq_true hc)
      rw [if_neg hb]
      omega

theorem maxWeightFrom_ge (es : List Entry) :
    ∀ m : Int, m ≤ maxWeightFrom es m ∧ ∀ e ∈ es, e.weight ≤ maxWeightFrom es m := by
  induction es with
  | nil =>
    intro m
    exact ⟨le_refl m, fun e he => (by cases he)⟩
  | cons e es ih =>
    intro m
    have h := ih (if m < e.weight then e.weight else m)
    have e1 : maxWeightFrom (e :: es) m =
        maxWeightFrom es (if m < e.weight then e.weight else m) := rfl
    rw [e1]
    refine ⟨?_, ?_⟩
    · by_cases hm : m < e.weight
      · rw [if_pos hm] at h ⊢
        omega
      · rw [if_neg hm] at h ⊢
        exact h.1
    · intro e2 he2
      rcases List.mem_cons.1 he2 with rfl | h2
      · by_cases hm : m < e2.weight
        · rw [if_pos hm] at h ⊢
          exact h.1
        · rw [if_neg hm] at h ⊢
          omega
      · exact h.2 e2 h2

theorem maxWeightFrom_mem (es : List Entry) :
    ∀ m : Int, maxWeightFrom es m = m ∨ ∃ e ∈ es, maxWeightFrom es m = e.weight := by
  induction es with
  | nil =>
    intro m
    exact Or.inl rfl
  | cons e es ih =>
    intro m
    have e1 : maxWeightFrom (e :: es) m =
        maxWeightFrom es (if m < e.weight then e.weight else m) := rfl
    rw [e1]
    rcases ih (if m < e.weight then e.weight else m) with h | ⟨e2, he2, h⟩
    · by_cases hm : m < e.weight
      · rw [if_pos hm] at h ⊢
        exact Or.inr ⟨e, List.mem_cons_self _ _, h⟩
      · rw [if_neg hm] at h ⊢
        exact Or.inl h
    · exact Or.inr ⟨e2, List.mem_cons_of_mem _ he2, h⟩

/-- When `CreateBags` completes, the threshold passed `IsNormalized`, no weight
has more digits than `K`, and bag `j`, for `j` below the number of digits of
the maximal weight, holds the literals of the entries with bit `j`. -/
theorem CreateBags_spec (pb : Threshold) (bags : List (List Literal))
    (h : CreateBags pb = some bags) :
    pb.IsNormalized = true ∧
      (∀ e ∈ pb.entries, (Binary e.weight).length ≤ (Binary pb.K).length) ∧
      bags = (List.range (Binary (maxWeightFrom pb.entries 0)).length).map
        (bagSpec pb.entries) := by
  unfold CreateBags at h
  by_cases hn : pb.IsNormalized = false
  · rw [if_pos hn] at h
    cases h
  rw [if_neg hn] at h
  simp only [] at h
  cases hs : sizeLoop pb.entries (List.replicate (Binary pb.K).length 0, 0) with
  | none => simp only [hs] at h; cases h
  | some r =>
    obtain ⟨bagSize, mw⟩ := r
    simp only [hs] at h
    obtain ⟨s1, s2, s3, s4⟩ := sizeLoop_spec _ _ _ _ _ hs
    rw [List.length_replicate] at s1 s2 s3
    subst s4
    cases ha : allocBags (List.range (Binary (maxWeightFrom pb.entries 0)).length) bagSize with
    | none => simp only [ha] at h; cases h
    | some bags0 =>
      simp only [ha] at h
      obtain ⟨a1, a2⟩ := allocBags_spec _ _ _ ha
      cases hp : placeLoop pb.entries (bags0, List.replicate (Binary pb.K).length 0) with
      | none => simp only [hp] at h; cases h
      | some st =>
        simp only [hp, Option.some.injEq] at h
        subst h
        have hinv := placeLoop_inv (fun j => bagSize.getD j 0)
          (Binary (maxWeightFrom pb.entries 0)).length (Binary pb.K).length pb.entries [] _ st hp
          (by
            refine ⟨by rw [a2]; simp, by simp, ?_⟩
            intro j hj
            have hjn : j < (Binary pb.K).length := by
              have := a1 j (List.mem_range.2 hj)
              omega
            refine ⟨?_, ?_⟩
            · rw [bagSpec_nil, List.getElem?_replicate, if_pos hjn]
              rfl
            · rw [a2, bagSpec_nil]
              simp [hj])
        refine ⟨by simpa using hn, s2, ?_⟩
        apply List.ext_getElem?
        intro j
        by_cases hj : j < (Binary (maxWeightFrom pb.entries 0)).length
        · have hjn : j < (Binary pb.K).length := by
            have := a1 j (List.mem_range.2 hj)
            omega
          have hsz : bagSize.getD j 0 = (bagSpec pb.entries j).length := by
            rw [s3 j hjn, ← sum_bits_eq_length]
            simp
          have hinv2 := (hinv.2.2 j hj).2
          simp only [List.nil_append] at hinv2
          rw [hinv2, hsz, Nat.sub_self]
          simp [hj]
        · rw [List.getElem?_eq_none (by rw [hinv.1]; omega), List.getElem?_eq_none (by simp; omega)]

/-! ## Bags as binary digits of the weighted sum -/

theorem wsum_map_range (N : Nat) :
    ∀ f : Nat → Nat, wsum ((List.range N).map f) = (Finset.range N).sum fun j => 2 ^ j * f j := by
  induction N with
  | zero =>
    intro f
    rfl
  | succ N ih =>
    intro f
    rw [List.range_succ_eq_map, List.map_cons, List.map_map, wsum, ih, Finset.sum_range_succ',
      Finset.mul_sum]
    simp only [Function.comp, Nat.succ_eq_add_one, pow_zero, one_mul]
    rw [Nat.add_comm]
    congr 1
    apply Finset.sum_congr rfl
    intro j _
    rw [pow_succ]
    ring

theorem countP_filter_hasBit_cons (p : Entry → Bool) (e : Entry) (es : List Entry) (j : Nat) :
    ((e :: es).filter (hasBit j)).countP p =
      (es.filter (hasBit j)).countP p + (if p e = true then e.weight.toNat / 2 ^ j % 2 else 0) := by
  have hD := Binary_getD e.weight j
  have h2 := bit_lt_two e j
  rw [List.filter_cons]
  by_cases h : (Binary e.weight).getD j 0 = 1
  · have hb : hasBit j e = true := decide_eq_true h
    rw [if_pos hb, List.countP_cons, ← hD, h]
  · have hb : ¬ (hasBit j e = true) := fun hc => h (of_decide_eq_true hc)
    rw [if_neg hb, ← hD]
    have : (Binary e.weight).getD j 0 = 0 := by omega
    rw [this]
    simp

theorem bags_sum (p : Entry → Bool) (N : Nat) (es : List Entry) :
    ((Finset.range N).sum fun j => 2 ^ j * ((es.filter (hasBit j)).countP p)) =
      (es.map fun e => if p e = true then e.weight.toNat % 2 ^ N else 0).sum := by
  induction es with
  | nil => simp
  | cons e es ih =>
    rw [List.map_cons, List.sum_cons, ← ih]
    simp only [countP_filter_hasBit_cons, Nat.mul_add]
    rw [Finset.sum_add_distrib, Nat.add_comm]
    congr 1
    by_cases hp : p e = true
    · simp only [hp, if_true]
      exact binary_expansion _ _
    · simp [hp]

theorem bags_natSum (p : Entry → Bool) (N : Nat) (es : List Entry)
    (hN : ∀ e ∈ es, e.weight.toNat < 2 ^ N) :
    wsum ((List.range N).map fun j => (es.filter (hasBit j)).countP p) = natSum p es := by
  rw [wsum_map_range, bags_sum]
  unfold natSum
  congr 1
  apply List.map_congr_left
  intro e he
  rw [Nat.mod_eq_of_lt (hN e he)]

theorem countTrue_bagSpec (σ : Assignment) (es : List Entry) (j : Nat) :
    countTrue σ (bagSpec es j) = (es.filter (hasBit j)).countP (fun e => e.literal.eval σ) := by
  unfold countTrue bagSpec
  rw [List.countP_map]
  rfl

theorem weightedSum_eq_natSum (σ : Assignment) (pb : Threshold)
    (hpos : ∀ e ∈ pb.entries, 0 < e.weight) :
    pb.weightedSum σ = (natSum (fun e => e.literal.eval σ) pb.entries : Nat) := by
  unfold Threshold.weightedSum natSum
  generalize pb.entries = es at hpos
  induction es with
  | nil => rfl
  | cons e es ih =>
    rw [List.map_cons, List.sum_cons, List.map_cons, List.sum_cons, Nat.cast_add,
      ih (fun e1 h1 => hpos e1 (List.mem_cons_of_mem _ h1))]
    have := hpos e (List.mem_cons_self _ _)
    congr 1
    by_cases h : e.literal.eval σ = true
    · simp only [h, if_true]
      omega
    · simp [h]

/-- **C19**: on a merged output that is sorted descending the fold step of
`CreateSorter` never fails; with the tare bit set it keeps the wires at the
even positions, `⌈m/2⌉` wires, and otherwise the wires at the odd positions,
`⌊m/2⌋` wires; the kept list is again sorted descending and holds exactly
`⌊(c + tareBit) / 2⌋` true wires when the merged output holds `c`. -/
theorem halve_sorted (tb : Bool) (out : List Bool) (hs : sortDesc out = out) :
    ∃ R, halve tb out = some R ∧
      R.length = (if tb = true then (out.length + 1) / 2 else out.length / 2) ∧
      (∀ p, p < R.length → R[p]? = out[2 * p + (if tb = true then 0 else 1)]?) ∧
      sortDesc R = R ∧
      R.count true = (out.count true + (if tb = true then 1 else 0)) / 2 := by
  obtain ⟨R, hR, hlen, hget⟩ := halve_spec tb out
  have hc : out.count true ≤ out.length := List.count_le_length _ _
  have hu : out = unary (out.count true) out.length := by
    rw [← sortDesc_eq_unary, hs]
  have hRu := halve_unary tb (out.count true) out.length hc
  rw [← hu, hR] at hRu
  have hRe := Option.some.inj hRu
  refine ⟨R, hR, ?_, hget, ?_, ?_⟩
  · rw [hlen]
    cases tb <;> simp
  · rw [hRe]
    exact sortDesc_unary _ _ (by cases tb <;> simp <;> omega)
  · rw [hRe, count_true_unary]

theorem halve_sorted_witness :
    sortDesc [true, true, false] = [true, true, false] ∧
      ∃ R, halve true [true, true, false] = some R ∧
        R.length = (if true = true then ([true, true, false].length + 1) / 2
          else [true, true, false].length / 2) ∧
        (∀ p, p < R.length →
          R[p]? = [true, true, false][2 * p + (if true = true then 0 else 1)]?) ∧
        sortDesc R = R ∧
        R.count true = ([true, true, false].count true + (if true = true then 1 else 0)) / 2 :=
  ⟨by decide, halve_sorted true [true, true, false] (by decide)⟩

theorem hasBit_eq_testBit (j : Nat) (e : Entry) : hasBit j e = e.weight.toNat.testBit j := by
  unfold hasBit
  rw [Binary_getD, Nat.testBit_to_div_mod]

theorem bagSpec_eq (es : List Entry) (j : Nat) :
    bagSpec es j = (es.filter fun e => e.weight.toNat.testBit j).map (·.literal) := by
  unfold bagSpec
  congr 1
  apply List.filter_congr
  intro e _
  exact hasBit_eq_testBit j e

theorem Binary_length_eq_size (n : Int) (hn : 0 < n) : (Binary n).length = Nat.size n.toNat := by
  have h1 := Binary_lt_pow n
  have h2 := Binary_pow_le n hn
  have h3 := Binary_length_pos n
  apply Nat.le_antisymm
  · have : (Binary n).length - 1 < Nat.size n.toNat := Nat.lt_size.2 h2
    omega
  · exact Nat.size_le.2 h1

theorem isNormalized_iff (pb : Threshold) :
    pb.IsNormalized = true ↔
      (∀ e ∈ pb.entries, 0 < e.weight) ∧ 0 ≤ pb.K ∧ pb.K < pb.sumWeights := by
  simp [Threshold.IsNormalized, and_assoc]

theorem sumWeights_nil (pb : Threshold) (h : pb.entries = []) : pb.sumWeights = 0 := by
  simp [Threshold.sumWeights, h]

/-- **C11**: whenever `CreateBags` completes, the number of bags is the
bit-length of the maximal weight, bag `i` holds, in entry order and once per
entry, the literals of the entries whose weight has bit `i` set, and for every
assignment the sum over `i` of `2^i` times the number of true literals of bag
`i` is the weighted sum of the true literals of the threshold. -/
theorem createBags_bags (pb : Threshold) (bags : List (List Literal))
    (h : CreateBags pb = some bags) :
    (∃ e ∈ pb.entries, (∀ e1 ∈ pb.entries, e1.weight ≤ e.weight) ∧
        bags.length = Nat.size e.weight.toNat) ∧
      (∀ i, i < bags.length →
        bags[i]? = some ((pb.entries.filter fun e => e.weight.toNat.testBit i).map (·.literal))) ∧
      ∀ σ : Assignment,
        (((Finset.range bags.length).sum fun i => 2 ^ i * countTrue σ (bags.getD i []) : Nat) :
          Int) = pb.weightedSum σ := by
  obtain ⟨hnorm, _, hb⟩ := CreateBags_spec pb bags h
  obtain ⟨hpos, hK0, hKs⟩ := (isNormalized_iff pb).1 hnorm
  have hlen : bags.length = (Binary (maxWeightFrom pb.entries 0)).length := by
    rw [hb]
    simp
  have hge := maxWeightFrom_ge pb.entries 0
  refine ⟨?_, ?_, ?_⟩
  · rcases maxWeightFrom_mem pb.entries 0 with h0 | ⟨e, he, h0⟩
    · exfalso
      cases hes : pb.entries with
      | nil =>
        have := sumWeights_nil pb hes
        omega
      | cons e es =>
        have h1 := hge.2 e (by rw [hes]; exact List.mem_cons_self _ _)
        have h2 := hpos e (by rw [hes]; exact List.mem_cons_self _ _)
        omega
    · refine ⟨e, he, ?_, ?_⟩
      · intro e1 he1
        rw [← h0]
        exact hge.2 e1 he1
      · rw [hlen, h0]
        exact Binary_length_eq_size _ (hpos e he)
  · intro i hi
    rw [hb, List.getElem?_map, List.getElem?_range (by rw [← hlen]; exact hi)]
    simp only [Option.map_some']
    rw [bagSpec_eq]
  · intro σ
    have hw : ∀ e ∈ pb.entries, e.weight.toNat < 2 ^ bags.length := by
      intro e he
      have h2 := Binary_length_mono _ _ (hge.2 e he)
      have h3 := Binary_lt_pow e.weight
      have h4 : 2 ^ (Binary e.weight).length ≤ 2 ^ bags.length := by
        rw [hlen]
        exact Nat.pow_le_pow_right (by omega) h2
      omega
    rw [weightedSum_eq_natSum σ pb hpos, ← bags_natSum _ bags.length pb.entries hw, wsum_map_range]
    congr 1
    apply Finset.sum_congr rfl
    intro i hi
    have hi2 : i < bags.length := Finset.mem_range.1 hi
    congr 1
    rw [← countTrue_bagSpec, List.getD_eq_getElem?_getD]
    conv_lhs => rw [hb]
    rw [List.getElem?_map, List.getElem?_range (by rw [← hlen]; exact hi2)]
    rfl

set_option maxRecDepth 100000 in
theorem createBags_bags_witness :
    CreateBags pbSmall = some bagsSmall ∧
      ((∃ e ∈ pbSmall.entries, (∀ e1 ∈ pbSmall.entries, e1.weight ≤ e.weight) ∧
          bagsSmall.length = Nat.size e.weight.toNat) ∧
        (∀ i, i < bagsSmall.length →
          bagsSmall[i]? =
            some ((pbSmall.entries.filter fun e => e.weight.toNat.testBit i).map (·.literal))) ∧
        ∀ σ : Assignment,
          (((Finset.range bagsSmall.length).sum
            fun i => 2 ^ i * countTrue σ (bagsSmall.getD i []) : Nat) : Int) =
              pbSmall.weightedSum σ) :=
  have h : CreateBags pbSmall = some bagsSmall := by decide
  ⟨h, createBags_bags pbSmall bagsSmall h⟩

/-! ## `CreateBags`: when it completes -/

theorem addBits_some (bin : List Nat) :
    ∀ (j : Nat) (bs : List Nat), j + bin.length ≤ bs.length → ∃ bs1, addBits j bin bs = some bs1 := by
  induction bin with
  | nil =>
    intro j bs _
    exact ⟨bs, rfl⟩
  | cons x bin ih =>
    intro j bs h
    rw [List.length_cons] at h
    have hj : j < bs.length := by omega
    rw [addBits, List.getElem?_eq_getElem hj]
    exact ih (j + 1) _ (by rw [List.length_set]; omega)

theorem sizeLoop_some (es : List Entry) :
    ∀ (bs : List Nat) (mw : Int), (∀ e ∈ es, (Binary e.weight).length ≤ bs.length) →
      ∃ r, sizeLoop es (bs, mw) = some r := by
  induction es with
  | nil =>
    intro bs mw _
    exact ⟨_, rfl⟩
  | cons e es ih =>
    intro bs mw h
    obtain ⟨bs1, hb⟩ := addBits_some (Binary e.weight) 0 bs
      (by have := h e (List.mem_cons_self _ _); omega)
    have hlen := (addBits_spec _ 0 bs bs1 hb).1
    rw [sizeLoop]
    simp only [hb]
    exact ih bs1 _ (fun e1 h1 => by rw [hlen]; exact h e1 (List.mem_cons_of_mem _ h1))

theorem allocBags_some (is : List Nat) (bagSize : List Nat) (h : ∀ i ∈ is, i < bagSize.length) :
    ∃ bags, allocBags is bagSize = some bags := by
  induction is with
  | nil => exact ⟨[], rfl⟩
  | cons i is ih =>
    obtain ⟨rest, hr⟩ := ih (fun k hk => h k (List.mem_cons_of_mem _ hk))
    have hi := h i (List.mem_cons_self _ _)
    rw [allocBags, List.getElem?_eq_getElem hi]
    simp only [hr]
    exact ⟨_, rfl⟩

theorem placeBits_some (lit : Literal) (bin : List Nat) :
    ∀ (j : Nat) (st : List (List Literal) × List Nat),
      (∀ k, j ≤ k → bin.getD (k - j) 0 = 1 →
        ∃ bag pos, st.1[k]? = some bag ∧ st.2[k]? = some pos ∧ pos < bag.length) →
      ∃ st1, placeBits lit j bin st = some st1 := by
  induction bin with
  | nil =>
    intro j st _
    exact ⟨st, rfl⟩
  | cons x bin ih =>
    intro j st h
    have hrest : ∀ (st2 : List (List Literal) × List Nat),
        (∀ k, j + 1 ≤ k → st2.1[k]? = st.1[k]? ∧ st2.2[k]? = st.2[k]?) →
        ∀ k, j + 1 ≤ k → bin.getD (k - (j + 1)) 0 = 1 →
          ∃ bag pos, st2.1[k]? = some bag ∧ st2.2[k]? = some pos ∧ pos < bag.length := by
      intro st2 hst k hk hb
      have e : k - j = (k - (j + 1)) + 1 := by omega
      obtain ⟨bag, pos, h1, h2, h3⟩ := h k (by omega) (by rw [e, List.getD_cons_succ]; exact hb)
      exact ⟨bag, pos, by rw [(hst k hk).1]; exact h1, by rw [(hst k hk).2]; exact h2, h3⟩
    rw [placeBits]
    by_cases hx : x = 1
    · obtain ⟨bag, pos, h1, h2, h3⟩ := h j (le_refl j) (by simp [hx])
      rw [if_pos hx]
      simp only [h1, h2]
      rw [if_pos h3]
      apply ih (j + 1) _ (hrest _ ?_)
      intro k hk
      have hne : ¬ (j = k) := by omega
      simp [List.getElem?_set_ne hne]
    · rw [if_neg hx]
      exact ih (j + 1) st (hrest st (fun k _ => ⟨rfl, rfl⟩))

theorem bagSpec_length_lt (P : List Entry) (e : Entry) (es : List Entry) (j : Nat)
    (hb : hasBit j e = true) :
    (bagSpec P j).length < (bagSpec (P ++ e :: es) j).length := by
  unfold bagSpec
  rw [List.filter_append, List.filter_cons, if_pos hb]
  simp

theorem placeLoop_some (sizes : Nat → Nat) (N nB : Nat) (es : List Entry) :
    ∀ (P : List Entry) (st : List (List Literal) × List Nat),
      (∀ e ∈ es, (Binary e.weight).length ≤ N) →
      (∀ j, j < N → sizes j = (bagSpec (P ++ es) j).length) →
      (st.1.length = N ∧ st.2.length = nB ∧ ∀ j, j < N →
        st.2[j]? = some (bagSpec P j).length ∧
        st.1[j]? = some (bagSpec P j ++
          List.replicate (sizes j - (bagSpec P j).length) default)) →
      ∃ st1, placeLoop es st = some st1 := by
  induction es with
  | nil =>
    intro P st _ _ _
    exact ⟨st, rfl⟩
  | cons e es ih =>
    intro P st hbits hsz hinv
    obtain ⟨st1, hst1⟩ := placeBits_some e.literal (Binary e.weight) 0 st (by
      intro k _ hk
      rw [Nat.sub_zero] at hk
      have hkN : k < N := by
        have h1 := hbits e (List.mem_cons_self _ _)
        by_contra hcon
        rw [List.getD_eq_getElem?_getD, List.getElem?_eq_none (by omega)] at hk
        simp at hk
      obtain ⟨i1, i2⟩ := hinv.2.2 k hkN
      refine ⟨_, _, i2, i1, ?_⟩
      have hlt := bagSpec_length_lt P e es k (decide_eq_true hk)
      rw [← hsz k hkN] at hlt
      rw [List.length_append, List.length_replicate]
      omega)
    have hone : placeLoop [e] st = some st1 := by
      rw [placeLoop]
      simp only [hst1]
      rfl
    have hinv1 := placeLoop_inv sizes N nB [e] P st st1 hone hinv
    rw [placeLoop]
    simp only [hst1]
    exact ih (P ++ [e]) st1 (fun e1 h1 => hbits e1 (List.mem_cons_of_mem _ h1))
      (by simpa using hsz) hinv1

theorem createBags_some (pb : Threshold) (hnorm : pb.IsNormalized = true)
    (hbits : ∀ e ∈ pb.entries, (Binary e.weight).length ≤ (Binary pb.K).length) :
    ∃ bags, CreateBags pb = some bags := by
  obtain ⟨r, hs⟩ := sizeLoop_some pb.entries (List.replicate (Binary pb.K).length 0) 0
    (by rw [List.length_replicate]; exact hbits)
  obtain ⟨bagSize, mw⟩ := r
  obtain ⟨s1, _, s3, s4⟩ := sizeLoop_spec _ _ _ _ _ hs
  rw [List.length_replicate] at s1 s3
  subst s4
  have hN : (Binary (maxWeightFrom pb.entries 0)).length ≤ (Binary pb.K).length := by
    rcases maxWeightFrom_mem pb.entries 0 with h0 | ⟨e, he, h0⟩
    · rw [h0]
      exact Binary_length_pos pb.K
    · rw [h0]
      exact hbits e he
  obtain ⟨bags0, ha⟩ := allocBags_some (List.range (Binary (maxWeightFrom pb.entries 0)).length)
    bagSize (fun i hi => by have := List.mem_range.1 hi; omega)
  obtain ⟨_, a2⟩ := allocBags_spec _ _ _ ha
  obtain ⟨st, hp⟩ := placeLoop_some (fun j => bagSize.getD j 0)
    (Binary (maxWeightFrom pb.entries 0)).length (Binary pb.K).length pb.entries []
    (bags0, List.replicate (Binary pb.K).length 0)
    (fun e he => Binary_length_mono _ _ ((maxWeightFrom_ge pb.entries 0).2 e he))
    (by
      intro j hj
      simp only [List.nil_append]
      rw [s3 j (by omega), ← sum_bits_eq_length]
      simp)
    (by
      refine ⟨by rw [a2]; simp, by simp, ?_⟩
      intro j hj
      refine ⟨?_, ?_⟩
      · rw [bagSpec_nil, List.getElem?_replicate, if_pos (by omega)]
        rfl
      · rw [a2, bagSpec_nil]
        simp [hj])
  refine ⟨st.1, ?_⟩
  unfold CreateBags
  rw [if_neg (by simp [hnorm])]
  simp only [hs, ha, hp]

theorem Binary_length_eq (n : Int) (hn : 0 ≤ n) :
    (Binary n).length = max 1 (Nat.size n.toNat) := by
  by_cases h0 : n = 0
  · subst h0
    have h : Nat.size (Int.toNat 0) = 0 := Nat.size_zero
    rw [h]
    rfl
  · rw [Binary_length_eq_size n (by omega)]
    have : 0 < Nat.size n.toNat := Nat.size_pos.2 (by omega)
    omega

/-- **C18** (amended): on a threshold that is normalized in the spec's sense
(every weight positive, `K ≥ 0`, `K` below the sum of the weights) `CreateBags`
completes if and only if no weight has a larger bit-length than `K` (than `1`
when `K = 0`): `bagSize` and `bagPos` are sized by the binary digits of `K`. -/
theorem createBags_completes_iff (pb : Threshold) (hpos : ∀ e ∈ pb.entries, 0 < e.weight)
    (hK : 0 ≤ pb.K) (hKs : pb.K < pb.sumWeights) :
    (∃ bags, CreateBags pb = some bags) ↔
      ∀ e ∈ pb.entries, Nat.size e.weight.toNat ≤ max 1 (Nat.size pb.K.toNat) := by
  have hnorm : pb.IsNormalized = true := (isNormalized_iff pb).2 ⟨hpos, hK, hKs⟩
  have hiff : ∀ e ∈ pb.entries, ((Binary e.weight).length ≤ (Binary pb.K).length ↔
      Nat.size e.weight.toNat ≤ max 1 (Nat.size pb.K.toNat)) := by
    intro e he
    rw [Binary_length_eq_size e.weight (hpos e he), Binary_length_eq pb.K hK]
  constructor
  · rintro ⟨bags, h⟩ e he
    exact (hiff e he).1 ((CreateBags_spec pb bags h).2.1 e he)
  · intro h
    exact createBags_some pb hnorm (fun e he => (hiff e he).2 (h e he))

set_option maxRecDepth 100000 in
theorem createBags_completes_iff_witness :
    (∀ e ∈ pbSmall.entries, 0 < e.weight) ∧ 0 ≤ pbSmall.K ∧ pbSmall.K < pbSmall.sumWeights ∧
      ((∃ bags, CreateBags pbSmall = some bags) ↔
        ∀ e ∈ pbSmall.entries, Nat.size e.weight.toNat ≤ max 1 (Nat.size pbSmall.K.toNat)) :=
  have h1 : ∀ e ∈ pbSmall.entries, 0 < e.weight := by decide
  have h2 : 0 ≤ pbSmall.K := by decide
  have h3 : pbSmall.K < pbSmall.sumWeights := by decide
  ⟨h1, h2, h3, createBags_completes_iff pbSmall h1 h2 h3⟩

set_option maxRecDepth 100000 in
/-- **C18**, as stated, fails: `8·x1 + 1·x2 ≤ 3` has positive weights and
`0 ≤ K <` sum of the weights, but the weight `8` has four binary digits and `K`
two, so `bagSize[2]` is out of range in the first pass and `CreateBags`
panics. -/
theorem createBags_wide_fails :
    (∀ e ∈ pbWide.entries, 0 < e.weight) ∧ 0 ≤ pbWide.K ∧ pbWide.K < pbWide.sumWeights ∧
      pbWide.IsNormalized = true ∧ CreateBags pbWide = none := by
  decide

/-! ## The tare and the boundary index -/

/-- The tare and the boundary index that `CreateSorter` ends with are the
values of `computeTare` and `computeOutLastLayer` for its `K` and its number
of bags. -/
theorem createSorter_tare {W : Type} [Inhabited W] (net : Nat → Int → List W → List W)
    (lit : Literal → W) (pb : Threshold) (r : SorterState W)
    (h : CreateSorter net lit pb = some r) :
    computeTare pb.K r.bags.length = some r.tare ∧
      r.outLastLayer = computeOutLastLayer pb.K r.bags.length r.tare := by
  unfold CreateSorter at h
  simp only [] at h
  split at h
  · cases h
  split at h
  · cases h
  split at h
  · cases h
  split at h
  · cases h
  · rename_i hP
    split at h
    · cases h
    split at h
    · cases h
    split at h
    · cases h
    · simp only [Option.some.injEq] at h
      subst h
      simp [computeTare, computeOutLastLayer, layerPow2, hP]

theorem boundaryWalk_eq (b : Int) (order : List Int) :
    ∀ (setTo : Int) (m : Int → Option Int) (id : Int),
      boundaryWalk b order setTo m id =
        match m id with
        | some v => some v
        | none =>
          if id ∈ order then
            some (if b ∈ order.take (order.indexOf id + 1) then 0 else setTo)
          else none := by
  induction order with
  | nil =>
    intro setTo m id
    cases h : m id <;> simp [boundaryWalk, h]
  | cons x rest ih =>
    intro setTo m id
    rw [boundaryWalk]
    cases hx : m x with
    | some w =>
      simp only [hx]
      rw [ih]
      cases hid : m id with
      | some v => rfl
      | none =>
        have hne : id ≠ x := by
          intro h
          rw [h, hx] at hid
          cases hid
        simp only [List.mem_cons, hne, false_or, List.indexOf_cons_ne _ (Ne.symm hne),
          List.take_succ_cons]
        by_cases hr : id ∈ rest
        · simp only [hr, if_true, Option.some.injEq]
          by_cases hb : b ∈ List.take (List.indexOf id rest + 1) rest
          · simp [hb]
          · by_cases hxb : x = b
            · simp [hb, hxb]
            · have : ¬ (b = x) := fun h => hxb h.symm
              simp [hb, hxb, this]
        · simp [hr]
    | none =>
      simp only [hx]
      rw [ih]
      by_cases hidx : id = x
      · subst hidx
        simp only [if_true, hx, List.mem_cons, true_or, List.indexOf_cons_self,
          Nat.zero_add, List.take_succ_cons, List.take_zero, List.mem_singleton]
        by_cases hxb : id = b
        · simp [hxb]
        · have : ¬ (b = id) := fun h => hxb h.symm
          simp [hxb, this]
      · simp only [hidx, if_false]
        cases hid : m id with
        | some v => rfl
        | none =>
          simp only [List.mem_cons, hidx, false_or, List.indexOf_cons_ne _ (Ne.symm hidx),
            List.take_succ_cons]
          by_cases hr : id ∈ rest
          · simp only [hr, if_true, Option.some.injEq]
            by_cases hb : b ∈ List.take (List.indexOf id rest + 1) rest
            · simp [hb]
            · by_cases hxb : x = b
              · simp [hb, hxb]
              · have : ¬ (b = x) := fun h => hxb h.symm
                simp [hb, hxb, this]
          · simp [hr]

/-- **C20** (amended): in the walk over the output order a wire that already
has an entry keeps its value; a wire without an entry that occurs in the order
is mapped to `0` if and only if the boundary id occurs in the order at or before
the first occurrence of the wire (the wire is the boundary wire or comes after
it), and to don't-care `-1` otherwise; a wire outside the order gets no entry. -/
theorem boundaryWalk_spec (idSetToZero : Int) (order : List Int) (finalMapping : Int → Option Int)
    (id : Int) :
    boundaryWalk idSetToZero order (-1) finalMapping id =
      match finalMapping id with
      | some v => some v
      | none =>
        if id ∈ order then
          some (if idSetToZero ∈ order.take (order.indexOf id + 1) then 0 else -1)
        else none :=
  boundaryWalk_eq idSetToZero order (-1) finalMapping id

/-- **C20**, as stated, fails: with the output order `[7, 8]`, the boundary id
`7` and an empty prior mapping, the wire `8` is not the boundary wire and has
no entry, yet it is mapped to `0`: `setTo` stays `0` once the boundary is
passed. -/
theorem boundaryWalk_after_boundary :
    (8 : Int) ≠ 7 ∧ (fun _ => none : Int → Option Int) 8 = none ∧
      boundaryWalk 7 [7, 8] (-1) (fun _ => none) 8 = some 0 ∧
      boundaryWalk 7 [7, 8] (-1) (fun _ => none) 7 = some 0 ∧
      boundaryWalk 7 [6, 7, 8] (-1) (fun _ => none) 6 = some (-1) := by
  decide

/-! ## Labels of the emitted clauses -/

theorem naiveClauses_small (tag : String) (L : List Literal) (h : L.length ≤ 1) :
    naiveClauses tag L = [] := by
  match L, h with
  | [], _ => exact naiveClauses_nil tag
  | [a], _ => rw [naiveClauses_cons, naiveClauses_nil]; rfl
  | _ :: _ :: _, h => simp at h

/-- **C15** (amended): on a list of length 0 or 1 `AtMostOne` returns an empty
clause set for Naive, Split, Heule and Log, and for Count on the empty list;
for Count on a single literal `a` it returns the two clauses `S_0 ∨ ¬a` and
`¬S_0 ∨ a` that define the signal. -/
theorem atMostOne_small (cc : CreateCardinality) (tag : String) (L : List Literal) (u : Nat)
    (h : L.length ≤ 1) :
    (∀ typ : OneTranslationType, (typ = .Naive ∨ typ = .Split ∨ typ = .Heule ∨ typ = .Log) →
      (AtMostOne cc typ tag L u).1.clauses = []) ∧
    (L = [] → (AtMostOne cc .Count tag L u).1.clauses = []) ∧
    (∀ a, L = [a] → (AtMostOne cc .Count tag L u).1.clauses =
      [⟨tag ++ "2", [signal u 0, Neg a]⟩, ⟨tag ++ "4", [Neg (signal u 0), a]⟩]) := by
  refine ⟨?_, ?_, ?_⟩
  · intro typ ht
    rcases ht with ht | ht | ht | ht <;> subst ht
    · exact naiveClauses_small tag L h
    · simp only [AtMostOne]
      rw [atMostOneSplit_small tag L u (by omega)]
      exact naiveClauses_small tag L h
    · simp only [AtMostOne]
      rw [atMostOneHeule_small tag L u (by omega)]
      exact naiveClauses_small tag L h
    · simp only [AtMostOne]
      rw [buildLogEncoding_small _ _ _ _ tag L (by omega)]
      exact naiveClauses_small tag L h
  · intro hL
    subst hL
    exact countClauses_nil tag _
  · intro a hL
    subst hL
    simp only [AtMostOne, atMostOneCount, newId]
    rw [countClauses_eq tag [a] u (by simp)]
    simp [List.range_succ]

theorem atMostOne_small_witness :
    [(⟨true, .P1 "x" 0⟩ : Literal)].length ≤ 1 ∧
      ((∀ typ : OneTranslationType, (typ = .Naive ∨ typ = .Split ∨ typ = .Heule ∨ typ = .Log) →
        (AtMostOne (fun _ _ _ _ => []) typ "t" [⟨true, .P1 "x" 0⟩] 0).1.clauses = []) ∧
      ([(⟨true, .P1 "x" 0⟩ : Literal)] = [] →
        (AtMostOne (fun _ _ _ _ => []) .Count "t" [⟨true, .P1 "x" 0⟩] 0).1.clauses = []) ∧
      (∀ a, [(⟨true, .P1 "x" 0⟩ : Literal)] = [a] →
        (AtMostOne (fun _ _ _ _ => []) .Count "t" [⟨true, .P1 "x" 0⟩] 0).1.clauses =
          [⟨"t" ++ "2", [signal 0 0, Neg a]⟩, ⟨"t" ++ "4", [Neg (signal 0 0), a]⟩])) :=
  ⟨by decide, atMostOne_small _ _ _ _ (by decide)⟩

/-- **C15**, as stated, fails for Count: on the single literal `x`
`AtMostOne(Count, ..)` returns two clauses, not an empty clause set. -/
theorem count_singleton_clauses :
    [(⟨true, .P1 "x" 0⟩ : Literal)].length = 1 ∧
      (AtMostOne (fun _ _ _ _ => []) .Count "t" [⟨true, .P1 "x" 0⟩] 0).1.clauses =
        [⟨"t2", [⟨true, .P2 "count" 0 0⟩, ⟨false, .P1 "x" 0⟩]⟩,
         ⟨"t4", [⟨false, .P2 "count" 0 0⟩, ⟨true, .P1 "x" 0⟩]⟩] ∧
      (AtMostOne (fun _ _ _ _ => []) .Count "t" [⟨true, .P1 "x" 0⟩] 0).1.clauses ≠ [] := by
  decide

/-! ## Auxiliary variables of the encodings -/

theorem mem_auxAtoms (L : List Literal) (cs : ClauseSet) (a : Atom) :
    a ∈ auxAtoms L cs ↔
      (∃ c ∈ cs, ∃ l ∈ c.lits, l.atom = a) ∧ ∀ m ∈ L, m.atom ≠ a := by
  simp only [auxAtoms, clauseAtoms, Finset.mem_filter, List.mem_toFinset, List.mem_flatMap,
    List.mem_map, not_exists, not_and]

theorem atom_Neg (l : Literal) : (Neg l).atom = l.atom := rfl

theorem atom_signal (c i : Nat) : (signal c i).atom = Atom.P2 "count" c i := rfl

theorem getElem!_mem (L : List Literal) (i : Nat) (h : i < L.length) : L[i]! ∈ L := by
  rw [getElem!_pos L i h]
  exact List.getElem_mem h

/-- The auxiliary variables of `ExactlyOne(Count, ..)` on `n ≥ 1` literals are
the `n` signals `S_0 .. S_{n-1}`. -/
theorem count_auxAtoms (tag : String) (L : List Literal) (u : Nat) (hL : L ≠ [])
    (hfresh : ∀ l ∈ L, ∀ i, i < L.length → l.atom ≠ Atom.P2 "count" u i) :
    auxAtoms L (countClauses tag L (countAuxs u L.length) ++
        [⟨tag ++ "Ex1", [signal u 0]⟩]) =
      (Finset.range L.length).image (fun i => Atom.P2 "count" u i) := by
  have hn : 0 < L.length := List.length_pos.2 hL
  ext a
  rw [mem_auxAtoms, countClauses_eq tag L u hL]
  simp only [Finset.mem_image, Finset.mem_range]
  constructor
  · rintro ⟨⟨c, hc, l, hl, rfl⟩, hnot⟩
    have hLmem : ∀ k, k < L.length → l.atom ≠ (L[k]!).atom :=
      fun k hk h => hnot _ (getElem!_mem L k hk) h.symm
    simp only [List.mem_append, List.mem_map, List.mem_range, List.mem_singleton] at hc
    rcases hc with ((((⟨k, hk, rfl⟩ | ⟨k, hk, rfl⟩) | ⟨k, hk, rfl⟩) |
      (⟨k, hk, rfl⟩ | rfl)) | rfl)
    · simp only [List.mem_cons, List.mem_singleton, List.not_mem_nil, or_false] at hl
      rcases hl with rfl | rfl
      · exact ⟨k, by omega, rfl⟩
      · exact ⟨k + 1, by omega, rfl⟩
    · simp only [List.mem_cons, List.mem_singleton, List.not_mem_nil, or_false] at hl
      rcases hl with rfl | rfl
      · exact ⟨k, hk, rfl⟩
      · exact absurd rfl (hLmem k hk)
    · simp only [List.mem_cons, List.mem_singleton, List.not_mem_nil, or_false] at hl
      rcases hl with rfl | rfl
      · exact ⟨k + 1, by omega, rfl⟩
      · exact absurd rfl (hLmem k (by omega))
    · simp only [List.mem_cons, List.mem_singleton, List.not_mem_nil, or_false] at hl
      rcases hl with rfl | rfl | rfl
      · exact ⟨k, by omega, rfl⟩
      · exact ⟨k + 1, by omega, rfl⟩
      · exact absurd rfl (hLmem k (by omega))
    · simp only [List.mem_cons, List.mem_singleton, List.not_mem_nil, or_false] at hl
      rcases hl with rfl | rfl
      · exact ⟨L.length - 1, by omega, rfl⟩
      · exact absurd rfl (hLmem (L.length - 1) (by omega))
    · simp only [List.mem_singleton] at hl
      subst hl
      exact ⟨0, hn, rfl⟩
  · rintro ⟨i, hi, rfl⟩
    refine ⟨⟨⟨tag ++ "2", [signal u i, Neg L[i]!]⟩, ?_, signal u i, by simp, rfl⟩, ?_⟩
    · simp only [List.mem_append, List.mem_map, List.mem_range]
      exact Or.inl (Or.inl (Or.inl (Or.inr ⟨i, hi, rfl⟩)))
    · intro m hm
      exact hfresh m hm i hi

theorem count_auxAtoms_card (tag : String) (L : List Literal) (u : Nat) (hL : L ≠ [])
    (hfresh : ∀ l ∈ L, ∀ i, i < L.length → l.atom ≠ Atom.P2 "count" u i) :
    (auxAtoms L (countClauses tag L (countAuxs u L.length) ++
        [⟨tag ++ "Ex1", [signal u 0]⟩])).card = L.length := by
  rw [count_auxAtoms tag L u hL hfresh, Finset.card_image_of_injective, Finset.card_range]
  intro i j h
  simpa using h

/-- **C17** (amended): on a list `L` of `n ≥ 1` literals none of whose atoms is
a signal of the counter, the clauses returned by `ExactlyOne(Count, tag, L)`
mention exactly `n` distinct auxiliary variables, the signals `S_0 .. S_{n-1}`;
for `[a, b, c]` that is 3 auxiliaries. -/
theorem exactlyOne_count_auxiliaries (cc : CreateCardinality) (tag : String) (L : List Literal)
    (u : Nat) (hL : L ≠ [])
    (hfresh : ∀ l ∈ L, ∀ i, i < L.length → l.atom ≠ Atom.P2 "count" u i) :
    ∃ t, ExactlyOne cc .Count tag L u = some (t, u + 1) ∧
      auxAtoms L t.clauses = (Finset.range L.length).image (fun i => Atom.P2 "count" u i) ∧
      (auxAtoms L t.clauses).card = L.length :=
  ⟨_, exactlyOne_count_eq cc tag L u hL, count_auxAtoms tag L u hL hfresh,
    count_auxAtoms_card tag L u hL hfresh⟩

theorem exactlyOne_count_auxiliaries_witness :
    ([(⟨true, .P1 "x" 0⟩ : Literal), ⟨true, .P1 "x" 1⟩, ⟨true, .P1 "x" 2⟩] ≠ []) ∧
    (∀ l ∈ [(⟨true, .P1 "x" 0⟩ : Literal), ⟨true, .P1 "x" 1⟩, ⟨true, .P1 "x" 2⟩], ∀ i,
        i < [(⟨true, .P1 "x" 0⟩ : Literal), ⟨true, .P1 "x" 1⟩, ⟨true, .P1 "x" 2⟩].length →
          l.atom ≠ Atom.P2 "count" 0 i) ∧
      ∃ t, ExactlyOne (fun _ _ _ _ => []) .Count "t"
          [⟨true, .P1 "x" 0⟩, ⟨true, .P1 "x" 1⟩, ⟨true, .P1 "x" 2⟩] 0 = some (t, 0 + 1) ∧
        auxAtoms [⟨true, .P1 "x" 0⟩, ⟨true, .P1 "x" 1⟩, ⟨true, .P1 "x" 2⟩] t.clauses =
          (Finset.range
            [(⟨true, .P1 "x" 0⟩ : Literal), ⟨true, .P1 "x" 1⟩, ⟨true, .P1 "x" 2⟩].length).image
            (fun i => Atom.P2 "count" 0 i) ∧
        (auxAtoms [⟨true, .P1 "x" 0⟩, ⟨true, .P1 "x" 1⟩, ⟨true, .P1 "x" 2⟩] t.clauses).card =
          [(⟨true, .P1 "x" 0⟩ : Literal), ⟨true, .P1 "x" 1⟩, ⟨true, .P1 "x" 2⟩].length :=
  ⟨by simp, by simp, exactlyOne_count_auxiliaries _ _ _ _ (by simp) (by simp)⟩

/-- **C17**, as stated, fails: on the three literals `x0, x1, x2` the clauses of
`ExactlyOne(Count, ..)` mention the three auxiliary variables `S_0, S_1, S_2`,
not two. -/
theorem count_three_auxiliaries :
    ∃ t, ExactlyOne (fun _ _ _ _ => []) .Count "t"
        [⟨true, .P1 "x" 0⟩, ⟨true, .P1 "x" 1⟩, ⟨true, .P1 "x" 2⟩] 0 = some (t, 1) ∧
      (auxAtoms [⟨true, .P1 "x" 0⟩, ⟨true, .P1 "x" 1⟩, ⟨true, .P1 "x" 2⟩] t.clauses).card = 3 ∧
      (auxAtoms [⟨true, .P1 "x" 0⟩, ⟨true, .P1 "x" 1⟩, ⟨true, .P1 "x" 2⟩] t.clauses).card ≠
        3 - 1 := by
  refine ⟨_, exactlyOne_count_eq _ _ _ _ (by simp), ?_, ?_⟩
  · exact count_auxAtoms_card "t" _ 0 (by simp) (by simp)
  · rw [show (auxAtoms [⟨true, .P1 "x" 0⟩, ⟨true, .P1 "x" 1⟩, ⟨true, .P1 "x" 2⟩] _).card = 3 from
      count_auxAtoms_card "t" _ 0 (by simp) (by simp)]
    decide

theorem naiveClauses_atoms (tag : String) (L : List Literal) :
    ∀ c ∈ naiveClauses tag L, ∀ l ∈ c.lits, ∃ m ∈ L, m.atom = l.atom := by
  intro c hc l hl
  rw [naiveClauses_eq_pairs] at hc
  obtain ⟨p, hp, rfl⟩ := List.mem_map.1 hc
  obtain ⟨i, j⟩ := p
  have hij := (mem_pairsLex L.length i j).1 hp
  simp only [List.mem_cons, List.mem_singleton, List.not_mem_nil, or_false] at hl
  rcases hl with rfl | rfl
  · exact ⟨L[i]!, getElem!_mem L i (by omega), rfl⟩
  · exact ⟨L[j]!, getElem!_mem L j hij.2, rfl⟩

/-- The Heule case records every auxiliary it mints: a variable of the returned
clauses that is not a variable of `L` is the variable of a literal of `Aux`. -/
theorem atMostOneHeule_aux (tag : String) (L : List Literal) (u : Nat) :
    ∀ a ∈ auxAtoms L (atMostOneHeule tag L u).1.clauses,
      ∃ x ∈ (atMostOneHeule tag L u).1.aux, x.atom = a := by
  suffices H : ∀ n (L : List Literal) (u : Nat), L.length = n →
      ∀ c ∈ (atMostOneHeule tag L u).1.clauses, ∀ l ∈ c.lits,
        (∃ m ∈ L, m.atom = l.atom) ∨ ∃ x ∈ (atMostOneHeule tag L u).1.aux, x.atom = l.atom by
    intro a ha
    obtain ⟨⟨c, hc, l, hl, rfl⟩, hnot⟩ := (mem_auxAtoms L _ a).1 ha
    rcases H L.length L u rfl c hc l hl with ⟨m, hm, h⟩ | h
    · exact absurd h (hnot m hm)
    · exact h
  intro n
  induction n using Nat.strong_induction_on with
  | _ n ih =>
    intro L u hn c hc l hl
    by_cases h : L.length ≤ 5
    · rw [atMostOneHeule_small tag L u h] at hc
      exact Or.inl (naiveClauses_atoms tag L c hc l hl)
    · rw [atMostOneHeule_large tag L u (by omega)] at hc ⊢
      simp only [List.mem_append] at hc
      simp only [List.mem_cons]
      rcases hc with hc | hc
      · obtain ⟨m, hm, hml⟩ := naiveClauses_atoms tag _ c hc l hl
        rcases List.mem_append.1 hm with hm | hm
        · exact Or.inl ⟨m, List.mem_of_mem_take hm, hml⟩
        · rw [List.mem_singleton] at hm
          subst hm
          exact Or.inr ⟨_, Or.inl rfl, hml⟩
      · rcases ih _ (by simp; omega) _ _ rfl c hc l hl with ⟨m, hm, hml⟩ | ⟨x, hx, hxl⟩
        · rcases List.mem_append.1 hm with hm | hm
          · exact Or.inl ⟨m, List.mem_of_mem_drop hm, hml⟩
          · rw [List.mem_singleton] at hm
            subst hm
            exact Or.inr ⟨⟨true, Atom.P1 "heule" u⟩, Or.inl rfl, hml⟩
        · exact Or.inr ⟨x, Or.inr hx, hxl⟩

/-- **C13** fails on the code for Count, Log and Split: the clauses of
`AtMostOne(Count, ..)` on one literal mention the signal `S_0` and those of
`AtMostOne(Log, ..)` on six literals the atom of depth 0, with an empty `Aux`
in both cases; the clauses of `AtMostOne(Split, ..)` on twelve literals mention
the auxiliary of the nested split, and `Aux` holds the auxiliary of the top
split only. -/
theorem atMostOne_aux_incomplete :
    ((AtMostOne (fun _ _ _ _ => []) .Count "t" [⟨true, .P1 "x" 0⟩] 0).1.aux = [] ∧
      Atom.P2 "count" 0 0 ∈ auxAtoms [⟨true, .P1 "x" 0⟩]
        (AtMostOne (fun _ _ _ _ => []) .Count "t" [⟨true, .P1 "x" 0⟩] 0).1.clauses) ∧
    ((AtMostOne (fun _ _ _ _ => []) .Log "t" sampleLits 0).1.aux = [] ∧
      Atom.P2 "logE" 0 0 ∈ auxAtoms sampleLits
        (AtMostOne (fun _ _ _ _ => []) .Log "t" sampleLits 0).1.clauses) ∧
    ((AtMostOne (fun _ _ _ _ => []) .Split "t" sampleLits12 0).1.aux =
        [⟨true, Atom.P1 "split" 0⟩] ∧
      Atom.P1 "split" 1 ∈ auxAtoms sampleLits12
        (AtMostOne (fun _ _ _ _ => []) .Split "t" sampleLits12 0).1.clauses) := by
  refine ⟨⟨rfl, ?_⟩, ⟨rfl, ?_⟩, ⟨?_, ?_⟩⟩
  · rw [mem_auxAtoms]
    refine ⟨⟨⟨"t2", [⟨true, .P2 "count" 0 0⟩, ⟨false, .P1 "x" 0⟩]⟩, by decide,
      ⟨true, .P2 "count" 0 0⟩, List.mem_cons_self _ _, rfl⟩, ?_⟩
    simp
  · rw [mem_auxAtoms]
    refine ⟨⟨⟨"t", [⟨true, .P2 "logE" 0 0⟩, Neg ⟨true, .P1 "x" 0⟩]⟩, ?_, _,
      List.mem_cons_self _ _, rfl⟩, ?_⟩
    · simp only [AtMostOne, newId]
      rw [buildLogEncoding_large _ _ _ _ _ _ (by omega) (by simp [sampleLits])]
      simp [sampleLits]
    · simp [sampleLits]
  · simp only [AtMostOne]
    rw [atMostOneSplit_large _ _ _ (by simp [sampleLits12])]
  · rw [mem_auxAtoms]
    refine ⟨⟨⟨"t", [⟨true, .P1 "split" 1⟩, Neg ⟨true, .P1 "x" 0⟩]⟩, ?_, _,
      List.mem_cons_self _ _, rfl⟩, ?_⟩
    · simp only [AtMostOne]
      rw [atMostOneSplit_large _ _ _ (by simp [sampleLits12])]
      simp only [List.mem_append]
      refine Or.inl (Or.inr ?_)
      rw [atMostOneSplit_large _ _ _ (by simp [sampleLits12])]
      simp [sampleLits12, List.range_succ]
    · simp [sampleLits12]

/-! ## Strategy values outside the six constants -/

theorem atMostOneInt_undefined (cc : CreateCardinality) (typ : Int) (tag : String)
    (L : List Literal) (u : Nat) (h : OneTranslationType.ofInt typ = none) :
    AtMostOneInt cc typ tag L u = some (⟨typ, [], []⟩, u) ∧
      ExactlyOneInt cc typ tag L u = none := by
  simp [AtMostOneInt, ExactlyOneInt, h]

/-- **C16** fails on the code for `AtMostOne`: for the strategy value `6`, which
is none of the six constants, `ExactlyOne` panics as the claim says, but
`AtMostOne` returns a `CardTranslation` with `Typ = 6`, no auxiliaries and an
empty clause set. -/
theorem atMostOne_undefined_strategy :
    OneTranslationType.ofInt 6 = none ∧
      AtMostOneInt (fun _ _ _ _ => []) 6 "t" [⟨true, .P1 "x" 0⟩, ⟨true, .P1 "x" 1⟩] 0 =
        some (⟨6, [], []⟩, 0) ∧
      ExactlyOneInt (fun _ _ _ _ => []) 6 "t" [⟨true, .P1 "x" 0⟩, ⟨true, .P1 "x" 1⟩] 0 = none := by
  decide

/-! ## Log: the auxiliary atoms of the split nodes -/

theorem logSplitNodes_small (pred : String) (uId cutoff depth : Nat) (path : List Bool)
    (L : List Literal) (h : L.length ≤ cutoff ∨ L.length < 2) :
    logSplitNodes pred uId cutoff depth path L = [] := by
  rw [logSplitNodes]
  by_cases h1 : L.length ≤ cutoff
  · rw [if_pos h1]
  · rw [if_neg h1, if_pos (by omega)]

theorem logSplitNodes_large (pred : String) (uId cutoff depth : Nat) (path : List Bool)
    (L : List Literal) (h : cutoff < L.length) (h2 : 2 ≤ L.length) :
    logSplitNodes pred uId cutoff depth path L =
      ⟨path, depth, L, Atom.P2 pred uId depth⟩ ::
        (logSplitNodes pred uId cutoff (depth + 1) (path ++ [false]) (L.take (L.length / 2)) ++
          logSplitNodes pred uId cutoff (depth + 1) (path ++ [true])
            (L.drop (L.length / 2))) := by
  rw [logSplitNodes, if_neg (by omega), if_neg (by omega)]

theorem buildLogEncoding_split (pred : String) (uId cutoff depth : Nat) (tag : String)
    (L : List Literal) (h : cutoff < L.length) (h2 : 2 ≤ L.length) :
    buildLogEncoding pred uId cutoff depth tag L =
      ((L.take (L.length / 2)).map fun l =>
          (⟨tag, [⟨true, Atom.P2 pred uId depth⟩, Neg l]⟩ : Clause)) ++
        ((L.drop (L.length / 2)).map fun l =>
          (⟨tag, [⟨false, Atom.P2 pred uId depth⟩, Neg l]⟩ : Clause)) ++
        buildLogEncoding pred uId cutoff (depth + 1) tag (L.take (L.length / 2)) ++
        buildLogEncoding pred uId cutoff (depth + 1) tag (L.drop (L.length / 2)) := by
  rw [buildLogEncoding, if_neg (by omega), if_neg (by omega)]

/-- Every split node builds the atom of its depth, lies as deep as its path is
long, and its two groups of clauses are clauses of the encoding. -/
theorem logSplitNodes_spec (pred : String) (uId cutoff : Nat) (tag : String)
    (L : List Literal) (depth : Nat) (path : List Bool) :
    ∀ n ∈ logSplitNodes pred uId cutoff depth path L,
      n.atom = Atom.P2 pred uId n.depth ∧
      n.depth + path.length = depth + n.path.length ∧ depth ≤ n.depth ∧
      (∀ l ∈ n.lits.take (n.lits.length / 2),
        (⟨tag, [⟨true, n.atom⟩, Neg l]⟩ : Clause) ∈
          buildLogEncoding pred uId cutoff depth tag L) ∧
      (∀ l ∈ n.lits.drop (n.lits.length / 2),
        (⟨tag, [⟨false, n.atom⟩, Neg l]⟩ : Clause) ∈
          buildLogEncoding pred uId cutoff depth tag L) := by
  suffices H : ∀ k (L : List Literal) (depth : Nat) (path : List Bool), L.length = k →
      ∀ n ∈ logSplitNodes pred uId cutoff depth path L,
        n.atom = Atom.P2 pred uId n.depth ∧
        n.depth + path.length = depth + n.path.length ∧ depth ≤ n.depth ∧
        (∀ l ∈ n.lits.take (n.lits.length / 2),
          (⟨tag, [⟨true, n.atom⟩, Neg l]⟩ : Clause) ∈
            buildLogEncoding pred uId cutoff depth tag L) ∧
        (∀ l ∈ n.lits.drop (n.lits.length / 2),
          (⟨tag, [⟨false, n.atom⟩, Neg l]⟩ : Clause) ∈
            buildLogEncoding pred uId cutoff depth tag L) from H L.length L depth path rfl
  intro k
  induction k using Nat.strong_induction_on with
  | _ k ih =>
    intro L depth path hk n hn
    by_cases h : L.length ≤ cutoff ∨ L.length < 2
    · rw [logSplitNodes_small pred uId cutoff depth path L h] at hn
      cases hn
    · have h1 : cutoff < L.length := by omega
      have h2 : 2 ≤ L.length := by omega
      rw [logSplitNodes_large pred uId cutoff depth path L h1 h2] at hn
      rw [buildLogEncoding_split pred uId cutoff depth tag L h1 h2]
      rcases List.mem_cons.1 hn with rfl | hn
      · refine ⟨rfl, rfl, le_refl _, ?_, ?_⟩
        · intro l hl
          simp only [List.mem_append, List.mem_map]
          exact Or.inl (Or.inl (Or.inl ⟨l, hl, rfl⟩))
        · intro l hl
          simp only [List.mem_append, List.mem_map]
          exact Or.inl (Or.inl (Or.inr ⟨l, hl, rfl⟩))
      · rcases List.mem_append.1 hn with hn | hn
        · obtain ⟨a1, a2, a3, a4, a5⟩ :=
            ih _ (by rw [← hk, List.length_take]; omega) _ (depth + 1) (path ++ [false]) rfl n hn
          rw [List.length_append, List.length_singleton] at a2
          refine ⟨a1, by omega, by omega, ?_, ?_⟩
          · intro l hl
            simp only [List.mem_append]
            exact Or.inl (Or.inr (a4 l hl))
          · intro l hl
            simp only [List.mem_append]
            exact Or.inl (Or.inr (a5 l hl))
        · obtain ⟨a1, a2, a3, a4, a5⟩ :=
            ih _ (by rw [← hk, List.length_drop]; omega) _ (depth + 1) (path ++ [true]) rfl n hn
          rw [List.length_append, List.length_singleton] at a2
          refine ⟨a1, by omega, by omega, ?_, ?_⟩
          · intro l hl
            simp only [List.mem_append]
            exact Or.inr (a4 l hl)
          · intro l hl
            simp only [List.mem_append]
            exact Or.inr (a5 l hl)

/-- **C21** (amended): in the Log strategy the auxiliary atom of a split node is
determined by the predicate, the run id and the depth of the node alone, so
two split nodes of one encoding use the same auxiliary atom exactly when they
are at the same depth, in whichever subtrees they lie; the depth of a node
is the length of its path, and the clauses of every split node over its atom
are clauses of the encoding. -/
theorem log_nodes_atom_iff_depth (pred : String) (uId cutoff : Nat) (tag : String)
    (L : List Literal) :
    (∀ n1 ∈ logSplitNodes pred uId cutoff 0 [] L, ∀ n2 ∈ logSplitNodes pred uId cutoff 0 [] L,
      (n1.atom = n2.atom ↔ n1.depth = n2.depth)) ∧
    (∀ n ∈ logSplitNodes pred uId cutoff 0 [] L,
      n.atom = Atom.P2 pred uId n.depth ∧ n.depth = n.path.length ∧
      (∀ l ∈ n.lits.take (n.lits.length / 2),
        (⟨tag, [⟨true, n.atom⟩, Neg l]⟩ : Clause) ∈ buildLogEncoding pred uId cutoff 0 tag L) ∧
      (∀ l ∈ n.lits.drop (n.lits.length / 2),
        (⟨tag, [⟨false, n.atom⟩, Neg l]⟩ : Clause) ∈
          buildLogEncoding pred uId cutoff 0 tag L)) := by
  constructor
  · intro n1 h1 n2 h2
    have e1 := (logSplitNodes_spec pred uId cutoff tag L 0 [] n1 h1).1
    have e2 := (logSplitNodes_spec pred uId cutoff tag L 0 [] n2 h2).1
    rw [e1, e2]
    constructor
    · intro h
      injection h
    · intro h
      rw [h]
  · intro n hn
    obtain ⟨a1, a2, _, a4, a5⟩ := logSplitNodes_spec pred uId cutoff tag L 0 [] n hn
    refine ⟨a1, ?_, a4, a5⟩
    simpa using a2

/-- **C21**, as stated, fails: on twelve literals the Log strategy of
`AtMostOne` splits the list and then each half; the two nodes below the root
are at depth 1 in different subtrees (paths `first` and `second`), and both
use the atom `logE(0, 1)` (run id 0), which occurs in a clause over a literal
of the first half and in a clause over a literal of the second half. -/
theorem log_siblings_share_atom :
    (⟨[false], 1, sampleLits12.take 6, Atom.P2 "logE" 0 1⟩ : LogNode) ∈
        logSplitNodes "logE" 0 5 0 [] sampleLits12 ∧
      (⟨[true], 1, sampleLits12.drop 6, Atom.P2 "logE" 0 1⟩ : LogNode) ∈
        logSplitNodes "logE" 0 5 0 [] sampleLits12 ∧
      (⟨"t", [⟨true, Atom.P2 "logE" 0 1⟩, ⟨false, .P1 "x" 0⟩]⟩ : Clause) ∈
        (AtMostOne (fun _ _ _ _ => []) .Log "t" sampleLits12 0).1.clauses ∧
      (⟨"t", [⟨true, Atom.P2 "logE" 0 1⟩, ⟨false, .P1 "x" 6⟩]⟩ : Clause) ∈
        (AtMostOne (fun _ _ _ _ => []) .Log "t" sampleLits12 0).1.clauses := by
  have hlen : sampleLits12.length = 12 := rfl
  have hlen1 : (sampleLits12.take 6).length = 6 := rfl
  have hlen2 : (sampleLits12.drop 6).length = 6 := rfl
  have hnodes := logSplitNodes_large "logE" 0 5 0 [] sampleLits12 (by rw [hlen]; omega)
    (by rw [hlen]; omega)
  rw [hlen] at hnodes
  have hn1 := logSplitNodes_large "logE" 0 5 1 [false] (sampleLits12.take 6)
    (by rw [hlen1]; omega) (by rw [hlen1]; omega)
  have hn2 := logSplitNodes_large "logE" 0 5 1 [true] (sampleLits12.drop 6)
    (by rw [hlen2]; omega) (by rw [hlen2]; omega)
  have hc := buildLogEncoding_split "logE" 0 5 0 "t" sampleLits12 (by rw [hlen]; omega)
    (by rw [hlen]; omega)
  rw [hlen] at hc
  have hc1 := buildLogEncoding_split "logE" 0 5 1 "t" (sampleLits12.take 6)
    (by rw [hlen1]; omega) (by rw [hlen1]; omega)
  have hc2 := buildLogEncoding_split "logE" 0 5 1 "t" (sampleLits12.drop 6)
    (by rw [hlen2]; omega) (by rw [hlen2]; omega)
  rw [hlen1] at hc1
  rw [hlen2] at hc2
  have e : (12 : Nat) / 2 = 6 := rfl
  have e3 : (6 : Nat) / 2 = 3 := rfl
  rw [e] at hnodes hc
  rw [e3] at hc1 hc2
  refine ⟨?_, ?_, ?_, ?_⟩
  · rw [hnodes]
    simp only [List.nil_append]
    rw [hn1]
    simp
  · rw [hnodes]
    simp only [List.nil_append]
    rw [hn2]
    simp
  · show _ ∈ buildLogEncoding "logE" 0 5 0 "t" sampleLits12
    rw [hc, hc1]
    simp only [List.mem_append, List.mem_map]
    refine Or.inl (Or.inr (Or.inl (Or.inl (Or.inl ⟨⟨true, .P1 "x" 0⟩, ?_, rfl⟩))))
    decide
  · show _ ∈ buildLogEncoding "logE" 0 5 0 "t" sampleLits12
    rw [hc, hc2]
    simp only [List.mem_append, List.mem_map]
    refine Or.inr (Or.inl (Or.inl (Or.inl ⟨⟨true, .P1 "x" 6⟩, ?_, rfl⟩)))
    decide

/-! ## `CreateSorter`: the boundary index is inside the carry list -/

set_option maxRecDepth 100000 in
/-- The merge on `progSmall`: an empty existential block first, because the
lowest level starts with a universal entry, then the blocks alternate. -/
theorem merge_progSmall :
    (Lib.progSmall.MergeConsecutiveQuantificationLevels 4).map (·.Alternation) =
      some [[], [⟨false, false, "a0", []⟩],
        [⟨false, false, "e0", []⟩, ⟨false, false, "e1", []⟩], [⟨false, false, "a2", []⟩]] := by
  decide

end Bule
